import Mathlib

/-!
Verification of the `centidb` key coder (`src/ext/keycoder.c`) against its
natural-language specification.

The development shallowly embeds the C functions as executable Lean
definitions over `List Nat` byte strings (every byte is a `Nat < 256`;
machine casts `(uint8_t)x` are embedded as `x % 256` or `x &&& 0xff`,
matching the C operator used at each site).

One remark applies throughout: in `read_plain_int` the C source declares
`uint64_t v;` without initializing it, assigns `*u64 = ch` in the
`ch <= 240` branch, and then unconditionally executes `*u64 = v;` at the end
of the function.  For a lead byte `<= 240` the local `v` is never assigned,
so the value stored through `u64` is the indeterminate contents of the
uninitialized stack slot.  The embedding makes this explicit with a `junk`
parameter threaded through every decoder: whatever the uninitialized
memory happened to contain is what `read_plain_int` returns for small
values.
-/

set_option maxHeartbeats 1000000

namespace KeyCoder

/-! ### Byte-list comparison (memcmp order, as used by a byte-ordered store) -/

/-- Strict lexicographic (unsigned byte-wise) order on byte strings, the
order in which an ordered key-value store compares keys: `memcmp` semantics
with a shorter string sorting before any proper extension. -/
def lexLt : List Nat → List Nat → Bool
  | [], [] => false
  | [], _ :: _ => true
  | _ :: _, [] => false
  | a :: as, b :: bs => if a < b then true else if a = b then lexLt as bs else false

theorem lexLt_cons_iff {a b : Nat} {as bs : List Nat} :
    lexLt (a :: as) (b :: bs) = true ↔ a < b ∨ (a = b ∧ lexLt as bs = true) := by
  simp only [lexLt]
  split
  · simp_all
  · split <;> simp_all

/-! ### Small bit-arithmetic toolkit -/

theorem lor_mod_two_pow (a b k : Nat) : (a ||| b) % 2 ^ k = a % 2 ^ k ||| b % 2 ^ k := by
  apply Nat.eq_of_testBit_eq
  intro i
  simp [Nat.testBit_mod_two_pow, Nat.testBit_or, Bool.and_or_distrib_left]

theorem lor_shiftRight (a b k : Nat) : (a ||| b) >>> k = a >>> k ||| b >>> k := by
  apply Nat.eq_of_testBit_eq
  intro i
  simp [Nat.testBit_shiftRight, Nat.testBit_or]

theorem lor_shiftLeft (a b k : Nat) : (a ||| b) <<< k = (a <<< k) ||| (b <<< k) := by
  apply Nat.eq_of_testBit_eq
  intro i
  simp [Nat.testBit_shiftLeft, Nat.testBit_or, Bool.and_or_distrib_left]

theorem lor_land (a b c : Nat) : (a ||| b) &&& c = (a &&& c) ||| (b &&& c) :=
  Nat.and_distrib_right a b c

theorem shiftRight_eq_zero_of_lt {a k : Nat} (h : a < 2 ^ k) : a >>> k = 0 := by
  rw [Nat.shiftRight_eq_div_pow]
  exact Nat.div_eq_of_lt h

theorem shiftLeft_shiftRight_cancel (a k : Nat) : (a <<< k) >>> k = a := by
  rw [Nat.shiftLeft_eq, Nat.shiftRight_eq_div_pow]
  exact Nat.mul_div_cancel a (Nat.pos_pow_of_pos k (by omega))

theorem shiftLeft_mod_self (a k : Nat) : (a <<< k) % 2 ^ k = 0 := by
  rw [Nat.shiftLeft_eq]
  exact Nat.mul_mod_left a (2 ^ k) ▸ by
    rw [Nat.mul_mod, Nat.mod_self, Nat.mul_zero, Nat.zero_mod]

/-- Bitwise OR coincides with addition when the left operand has no bits
below position `k` and the right operand lies entirely below position `k`. -/
theorem lor_eq_add_of_mod (k a b : Nat) (ha : a % 2 ^ k = 0) (hb : b < 2 ^ k) :
    a ||| b = a + b := by
  have hsr : (a ||| b) >>> k = a >>> k := by
    rw [lor_shiftRight, shiftRight_eq_zero_of_lt hb, Nat.or_zero]
  have hmod : (a ||| b) % 2 ^ k = b := by
    rw [lor_mod_two_pow, ha, Nat.zero_or, Nat.mod_eq_of_lt hb]
  have h1 := Nat.div_add_mod (a ||| b) (2 ^ k)
  have h2 := Nat.div_add_mod a (2 ^ k)
  rw [← Nat.shiftRight_eq_div_pow] at h1 h2
  rw [hsr, hmod] at h1
  omega

/-- Special case: `(a <<< k) ||| b = 2^k * a + b` when `b < 2^k`. -/
theorem shiftLeft_lor_eq_add {k a b : Nat} (hb : b < 2 ^ k) :
    (a <<< k) ||| b = 2 ^ k * a + b := by
  rw [lor_eq_add_of_mod k _ _ (shiftLeft_mod_self a k) hb, Nat.shiftLeft_eq, Nat.mul_comm]

/-! ### `write_int`: the order-preserving varint encoder (§4.2)

Direct transcription of `write_int` from `keycoder.c` with a zero `kind`
argument: the bytes appended to the writer for a value `v`.  `(uint8_t)` casts
are `% 256`, `v & 0xff` is `v &&& 0xff`, `v >> n` is `v >>> n`. -/

def write_int (v : Nat) : List Nat :=
  if v ≤ 240 then [v]
  else if v ≤ 2287 then
    [241 + ((v - 240) >>> 8) % 256, (v - 240) &&& 0xff]
  else if v ≤ 67823 then
    [0xf9, ((v - 2288) >>> 8) % 256, (v - 2288) &&& 0xff]
  else if v ≤ 0xffffff then
    [0xfa, (v >>> 16) % 256, (v >>> 8) % 256, v % 256]
  else if v ≤ 0xffffffff then
    [0xfb, (v >>> 24) % 256, (v >>> 16) % 256, (v >>> 8) % 256, v % 256]
  else if v ≤ 0xffffffffff then
    [0xfc, (v >>> 32) % 256, (v >>> 24) % 256, (v >>> 16) % 256, (v >>> 8) % 256, v % 256]
  else if v ≤ 0xffffffffffff then
    [0xfd, (v >>> 40) % 256, (v >>> 32) % 256, (v >>> 24) % 256, (v >>> 16) % 256,
     (v >>> 8) % 256, v % 256]
  else if v ≤ 0xffffffffffffff then
    [0xfe, (v >>> 48) % 256, (v >>> 40) % 256, (v >>> 32) % 256, (v >>> 24) % 256,
     (v >>> 16) % 256, (v >>> 8) % 256, v % 256]
  else
    [0xff, (v >>> 56) % 256, (v >>> 48) % 256, (v >>> 40) % 256, (v >>> 32) % 256,
     (v >>> 24) % 256, (v >>> 16) % 256, (v >>> 8) % 256, v % 256]

/-! ### `read_plain_int`: the varint decoder

Transcription of `read_plain_int`.  The reader is embedded as the list of
bytes not yet consumed; a successful call returns the stored value and the
remaining bytes, a failed `reader_getc`/`reader_ensure` returns `none`.

The `junk` parameter is the content of the uninitialized local `v`: in the
`ch <= 240` branch the function stores `ch` through the out-pointer but the
final `*u64 = v;` overwrites it with `junk`. -/

def read_plain_int (junk : Nat) : List Nat → Option (Nat × List Nat)
  | [] => none
  | ch :: rest =>
    if ch ≤ 240 then
      some (junk, rest)
    else if ch ≤ 248 then
      match rest with
      | b1 :: r => some (240 + 256 * (ch - 241) + b1, r)
      | [] => none
    else if ch = 249 then
      match rest with
      | b1 :: b2 :: r => some (2288 + 256 * b1 + b2, r)
      | _ => none
    else if ch = 250 then
      match rest with
      | b1 :: b2 :: b3 :: r => some ((b1 <<< 16) ||| (b2 <<< 8) ||| b3, r)
      | _ => none
    else if ch = 251 then
      match rest with
      | b1 :: b2 :: b3 :: b4 :: r =>
        some ((b1 <<< 24) ||| (b2 <<< 16) ||| (b3 <<< 8) ||| b4, r)
      | _ => none
    else if ch = 252 then
      match rest with
      | b1 :: b2 :: b3 :: b4 :: b5 :: r =>
        some ((b1 <<< 32) ||| (b2 <<< 24) ||| (b3 <<< 16) ||| (b4 <<< 8) ||| b5, r)
      | _ => none
    else if ch = 253 then
      match rest with
      | b1 :: b2 :: b3 :: b4 :: b5 :: b6 :: r =>
        some ((b1 <<< 40) ||| (b2 <<< 32) ||| (b3 <<< 24) ||| (b4 <<< 16) ||| (b5 <<< 8) |||
          b6, r)
      | _ => none
    else if ch = 254 then
      match rest with
      | b1 :: b2 :: b3 :: b4 :: b5 :: b6 :: b7 :: r =>
        some ((b1 <<< 48) ||| (b2 <<< 40) ||| (b3 <<< 32) ||| (b4 <<< 24) ||| (b5 <<< 16) |||
          (b6 <<< 8) ||| b7, r)
      | _ => none
    else if ch = 255 then
      match rest with
      | b1 :: b2 :: b3 :: b4 :: b5 :: b6 :: b7 :: b8 :: r =>
        some ((b1 <<< 56) ||| (b2 <<< 48) ||| (b3 <<< 40) ||| (b4 <<< 32) ||| (b5 <<< 24) |||
          (b6 <<< 16) ||| (b7 <<< 8) ||| b8, r)
      | _ => none
    else
      none

example : write_int 0 = [0] := by decide
example : write_int 240 = [0xf0] := by decide
example : write_int 241 = [0xf1, 1] := by decide
example : write_int 2288 = [0xf9, 0, 0] := by decide
example : read_plain_int 7 (write_int 300) = some (300, []) := by decide
example : read_plain_int 7 (write_int 70000) = some (70000, []) := by decide
example : read_plain_int 7 (write_int 5) = some (7, []) := by decide

/-! ### Varint arithmetic lemmas -/

theorem and_255 (x : Nat) : x &&& 255 = x % 256 := by
  have h := Nat.and_pow_two_sub_one_eq_mod x 8
  norm_num at h
  exact h

theorem shiftLeft_mod_of_le (x : Nat) {m k : Nat} (h : m ≤ k) : (x <<< k) % 2 ^ m = 0 := by
  rw [Nat.shiftLeft_eq]
  have hk : 2 ^ k = 2 ^ (k - m) * 2 ^ m := by rw [← pow_add]; congr 1; omega
  rw [hk, ← Nat.mul_assoc]
  exact Nat.mul_mod_left _ _

/-- Middle step of big-endian reassembly: OR-ing a byte shifted into a slot
below an accumulator whose low bits are clear is addition. -/
theorem orMid (j A b : Nat) (hA : A % (2 ^ j * 256) = 0) (hb : b < 256) :
    A ||| (b <<< j) = A + 2 ^ j * b := by
  have h1 : (2 : Nat) ^ j * 256 = 2 ^ (j + 8) := by rw [pow_add]; norm_num
  have hp : 0 < 2 ^ j := Nat.pos_pow_of_pos j (by omega)
  have hb2 : b <<< j < 2 ^ (j + 8) := by
    rw [Nat.shiftLeft_eq, ← h1]
    calc b * 2 ^ j < 256 * 2 ^ j := (Nat.mul_lt_mul_right hp).mpr hb
      _ = 2 ^ j * 256 := Nat.mul_comm _ _
  rw [lor_eq_add_of_mod (j + 8) _ _ (h1 ▸ hA) hb2, Nat.shiftLeft_eq]
  ring

theorem orLow (A b : Nat) (hA : A % 256 = 0) (hb : b < 256) : A ||| b = A + b := by
  have h1 : A % 2 ^ 8 = 0 := by norm_num; omega
  have h2 : b < 2 ^ 8 := by norm_num; omega
  exact lor_eq_add_of_mod 8 A b h1 h2

theorem beOr3 (b1 b2 b3 : Nat) (h2 : b2 < 256) (h3 : b3 < 256) :
    (b1 <<< 16) ||| (b2 <<< 8) ||| b3 = 65536 * b1 + 256 * b2 + b3 := by
  have s1 : (b1 <<< 16) ||| (b2 <<< 8) = b1 <<< 16 + 2 ^ 8 * b2 :=
    orMid 8 _ _ (by rw [Nat.shiftLeft_eq]; omega) h2
  have s2 : (b1 <<< 16 + 2 ^ 8 * b2) ||| b3 = b1 <<< 16 + 2 ^ 8 * b2 + b3 :=
    orLow _ _ (by rw [Nat.shiftLeft_eq]; omega) h3
  rw [s1, s2, Nat.shiftLeft_eq]
  omega

theorem beOr4 (b1 b2 b3 b4 : Nat) (h2 : b2 < 256) (h3 : b3 < 256) (h4 : b4 < 256) :
    (b1 <<< 24) ||| (b2 <<< 16) ||| (b3 <<< 8) ||| b4 =
      16777216 * b1 + 65536 * b2 + 256 * b3 + b4 := by
  have s1 : (b1 <<< 24) ||| (b2 <<< 16) = b1 <<< 24 + 2 ^ 16 * b2 :=
    orMid 16 _ _ (by rw [Nat.shiftLeft_eq]; omega) h2
  have s2 : (b1 <<< 24 + 2 ^ 16 * b2) ||| (b3 <<< 8) = b1 <<< 24 + 2 ^ 16 * b2 + 2 ^ 8 * b3 :=
    orMid 8 _ _ (by rw [Nat.shiftLeft_eq]; omega) h3
  have s3 : (b1 <<< 24 + 2 ^ 16 * b2 + 2 ^ 8 * b3) ||| b4 =
      b1 <<< 24 + 2 ^ 16 * b2 + 2 ^ 8 * b3 + b4 :=
    orLow _ _ (by rw [Nat.shiftLeft_eq]; omega) h4
  rw [s1, s2, s3, Nat.shiftLeft_eq]
  omega

theorem beOr5 (b1 b2 b3 b4 b5 : Nat) (h2 : b2 < 256) (h3 : b3 < 256) (h4 : b4 < 256)
    (h5 : b5 < 256) :
    (b1 <<< 32) ||| (b2 <<< 24) ||| (b3 <<< 16) ||| (b4 <<< 8) ||| b5 =
      4294967296 * b1 + 16777216 * b2 + 65536 * b3 + 256 * b4 + b5 := by
  have s1 : (b1 <<< 32) ||| (b2 <<< 24) = b1 <<< 32 + 2 ^ 24 * b2 :=
    orMid 24 _ _ (by rw [Nat.shiftLeft_eq]; omega) h2
  have s2 : (b1 <<< 32 + 2 ^ 24 * b2) ||| (b3 <<< 16) =
      b1 <<< 32 + 2 ^ 24 * b2 + 2 ^ 16 * b3 :=
    orMid 16 _ _ (by rw [Nat.shiftLeft_eq]; omega) h3
  have s3 : (b1 <<< 32 + 2 ^ 24 * b2 + 2 ^ 16 * b3) ||| (b4 <<< 8) =
      b1 <<< 32 + 2 ^ 24 * b2 + 2 ^ 16 * b3 + 2 ^ 8 * b4 :=
    orMid 8 _ _ (by rw [Nat.shiftLeft_eq]; omega) h4
  have s4 : (b1 <<< 32 + 2 ^ 24 * b2 + 2 ^ 16 * b3 + 2 ^ 8 * b4) ||| b5 =
      b1 <<< 32 + 2 ^ 24 * b2 + 2 ^ 16 * b3 + 2 ^ 8 * b4 + b5 :=
    orLow _ _ (by rw [Nat.shiftLeft_eq]; omega) h5
  rw [s1, s2, s3, s4, Nat.shiftLeft_eq]
  omega

theorem beOr6 (b1 b2 b3 b4 b5 b6 : Nat) (h2 : b2 < 256) (h3 : b3 < 256) (h4 : b4 < 256)
    (h5 : b5 < 256) (h6 : b6 < 256) :
    (b1 <<< 40) ||| (b2 <<< 32) ||| (b3 <<< 24) ||| (b4 <<< 16) ||| (b5 <<< 8) ||| b6 =
      1099511627776 * b1 + 4294967296 * b2 + 16777216 * b3 + 65536 * b4 + 256 * b5 + b6 := by
  have s1 : (b1 <<< 40) ||| (b2 <<< 32) = b1 <<< 40 + 2 ^ 32 * b2 :=
    orMid 32 _ _ (by rw [Nat.shiftLeft_eq]; omega) h2
  have s2 : (b1 <<< 40 + 2 ^ 32 * b2) ||| (b3 <<< 24) =
      b1 <<< 40 + 2 ^ 32 * b2 + 2 ^ 24 * b3 :=
    orMid 24 _ _ (by rw [Nat.shiftLeft_eq]; omega) h3
  have s3 : (b1 <<< 40 + 2 ^ 32 * b2 + 2 ^ 24 * b3) ||| (b4 <<< 16) =
      b1 <<< 40 + 2 ^ 32 * b2 + 2 ^ 24 * b3 + 2 ^ 16 * b4 :=
    orMid 16 _ _ (by rw [Nat.shiftLeft_eq]; omega) h4
  have s4 : (b1 <<< 40 + 2 ^ 32 * b2 + 2 ^ 24 * b3 + 2 ^ 16 * b4) ||| (b5 <<< 8) =
      b1 <<< 40 + 2 ^ 32 * b2 + 2 ^ 24 * b3 + 2 ^ 16 * b4 + 2 ^ 8 * b5 :=
    orMid 8 _ _ (by rw [Nat.shiftLeft_eq]; omega) h5
  have s5 : (b1 <<< 40 + 2 ^ 32 * b2 + 2 ^ 24 * b3 + 2 ^ 16 * b4 + 2 ^ 8 * b5) ||| b6 =
      b1 <<< 40 + 2 ^ 32 * b2 + 2 ^ 24 * b3 + 2 ^ 16 * b4 + 2 ^ 8 * b5 + b6 :=
    orLow _ _ (by rw [Nat.shiftLeft_eq]; omega) h6
  rw [s1, s2, s3, s4, s5, Nat.shiftLeft_eq]
  omega

theorem beOr7 (b1 b2 b3 b4 b5 b6 b7 : Nat) (h2 : b2 < 256) (h3 : b3 < 256) (h4 : b4 < 256)
    (h5 : b5 < 256) (h6 : b6 < 256) (h7 : b7 < 256) :
    (b1 <<< 48) ||| (b2 <<< 40) ||| (b3 <<< 32) ||| (b4 <<< 24) ||| (b5 <<< 16) |||
        (b6 <<< 8) ||| b7 =
      281474976710656 * b1 + 1099511627776 * b2 + 4294967296 * b3 + 16777216 * b4 +
        65536 * b5 + 256 * b6 + b7 := by
  have s1 : (b1 <<< 48) ||| (b2 <<< 40) = b1 <<< 48 + 2 ^ 40 * b2 :=
    orMid 40 _ _ (by rw [Nat.shiftLeft_eq]; omega) h2
  have s2 : (b1 <<< 48 + 2 ^ 40 * b2) ||| (b3 <<< 32) =
      b1 <<< 48 + 2 ^ 40 * b2 + 2 ^ 32 * b3 :=
    orMid 32 _ _ (by rw [Nat.shiftLeft_eq]; omega) h3
  have s3 : (b1 <<< 48 + 2 ^ 40 * b2 + 2 ^ 32 * b3) ||| (b4 <<< 24) =
      b1 <<< 48 + 2 ^ 40 * b2 + 2 ^ 32 * b3 + 2 ^ 24 * b4 :=
    orMid 24 _ _ (by rw [Nat.shiftLeft_eq]; omega) h4
  have s4 : (b1 <<< 48 + 2 ^ 40 * b2 + 2 ^ 32 * b3 + 2 ^ 24 * b4) ||| (b5 <<< 16) =
      b1 <<< 48 + 2 ^ 40 * b2 + 2 ^ 32 * b3 + 2 ^ 24 * b4 + 2 ^ 16 * b5 :=
    orMid 16 _ _ (by rw [Nat.shiftLeft_eq]; omega) h5
  have s5 : (b1 <<< 48 + 2 ^ 40 * b2 + 2 ^ 32 * b3 + 2 ^ 24 * b4 + 2 ^ 16 * b5) |||
        (b6 <<< 8) =
      b1 <<< 48 + 2 ^ 40 * b2 + 2 ^ 32 * b3 + 2 ^ 24 * b4 + 2 ^ 16 * b5 + 2 ^ 8 * b6 :=
    orMid 8 _ _ (by rw [Nat.shiftLeft_eq]; omega) h6
  have s6 : (b1 <<< 48 + 2 ^ 40 * b2 + 2 ^ 32 * b3 + 2 ^ 24 * b4 + 2 ^ 16 * b5 +
        2 ^ 8 * b6) ||| b7 =
      b1 <<< 48 + 2 ^ 40 * b2 + 2 ^ 32 * b3 + 2 ^ 24 * b4 + 2 ^ 16 * b5 + 2 ^ 8 * b6 + b7 :=
    orLow _ _ (by rw [Nat.shiftLeft_eq]; omega) h7
  rw [s1, s2, s3, s4, s5, s6, Nat.shiftLeft_eq]
  omega

theorem beOr8 (b1 b2 b3 b4 b5 b6 b7 b8 : Nat) (h2 : b2 < 256) (h3 : b3 < 256)
    (h4 : b4 < 256) (h5 : b5 < 256) (h6 : b6 < 256) (h7 : b7 < 256) (h8 : b8 < 256) :
    (b1 <<< 56) ||| (b2 <<< 48) ||| (b3 <<< 40) ||| (b4 <<< 32) ||| (b5 <<< 24) |||
        (b6 <<< 16) ||| (b7 <<< 8) ||| b8 =
      72057594037927936 * b1 + 281474976710656 * b2 + 1099511627776 * b3 +
        4294967296 * b4 + 16777216 * b5 + 65536 * b6 + 256 * b7 + b8 := by
  have s1 : (b1 <<< 56) ||| (b2 <<< 48) = b1 <<< 56 + 2 ^ 48 * b2 :=
    orMid 48 _ _ (by rw [Nat.shiftLeft_eq]; omega) h2
  have s2 : (b1 <<< 56 + 2 ^ 48 * b2) ||| (b3 <<< 40) =
      b1 <<< 56 + 2 ^ 48 * b2 + 2 ^ 40 * b3 :=
    orMid 40 _ _ (by rw [Nat.shiftLeft_eq]; omega) h3
  have s3 : (b1 <<< 56 + 2 ^ 48 * b2 + 2 ^ 40 * b3) ||| (b4 <<< 32) =
      b1 <<< 56 + 2 ^ 48 * b2 + 2 ^ 40 * b3 + 2 ^ 32 * b4 :=
    orMid 32 _ _ (by rw [Nat.shiftLeft_eq]; omega) h4
  have s4 : (b1 <<< 56 + 2 ^ 48 * b2 + 2 ^ 40 * b3 + 2 ^ 32 * b4) ||| (b5 <<< 24) =
      b1 <<< 56 + 2 ^ 48 * b2 + 2 ^ 40 * b3 + 2 ^ 32 * b4 + 2 ^ 24 * b5 :=
    orMid 24 _ _ (by rw [Nat.shiftLeft_eq]; omega) h5
  have s5 : (b1 <<< 56 + 2 ^ 48 * b2 + 2 ^ 40 * b3 + 2 ^ 32 * b4 + 2 ^ 24 * b5) |||
        (b6 <<< 16) =
      b1 <<< 56 + 2 ^ 48 * b2 + 2 ^ 40 * b3 + 2 ^ 32 * b4 + 2 ^ 24 * b5 + 2 ^ 16 * b6 :=
    orMid 16 _ _ (by rw [Nat.shiftLeft_eq]; omega) h6
  have s6 : (b1 <<< 56 + 2 ^ 48 * b2 + 2 ^ 40 * b3 + 2 ^ 32 * b4 + 2 ^ 24 * b5 +
        2 ^ 16 * b6) ||| (b7 <<< 8) =
      b1 <<< 56 + 2 ^ 48 * b2 + 2 ^ 40 * b3 + 2 ^ 32 * b4 + 2 ^ 24 * b5 + 2 ^ 16 * b6 +
        2 ^ 8 * b7 :=
    orMid 8 _ _ (by rw [Nat.shiftLeft_eq]; omega) h7
  have s7 : (b1 <<< 56 + 2 ^ 48 * b2 + 2 ^ 40 * b3 + 2 ^ 32 * b4 + 2 ^ 24 * b5 +
        2 ^ 16 * b6 + 2 ^ 8 * b7) ||| b8 =
      b1 <<< 56 + 2 ^ 48 * b2 + 2 ^ 40 * b3 + 2 ^ 32 * b4 + 2 ^ 24 * b5 + 2 ^ 16 * b6 +
        2 ^ 8 * b7 + b8 :=
    orLow _ _ (by rw [Nat.shiftLeft_eq]; omega) h8
  rw [s1, s2, s3, s4, s5, s6, s7, Nat.shiftLeft_eq]
  omega

/-- Decoding an encoding, followed by arbitrary residual bytes, consumes exactly
the encoding.  For `v ≤ 240` the stored value is the uninitialized `junk`, not
`v` (the latent defect of `read_plain_int`); for all larger values it is `v`. -/
theorem read_write_int (junk v : Nat) (r : List Nat) (hv : v < 2 ^ 64) :
    read_plain_int junk (write_int v ++ r) =
      some ((if v ≤ 240 then junk else v), r) := by
  unfold write_int
  split_ifs with h1 h2 h3 h4 h5 h6 h7 h8
  · simp only [List.cons_append, List.nil_append, read_plain_int, if_pos h1]
  · -- 241 ≤ v ≤ 2287, lead byte 241..248
    have hall : ((v - 240) >>> 8) % 256 = (v - 240) / 256 := by
      rw [Nat.shiftRight_eq_div_pow]
      norm_num
      omega
    simp only [List.cons_append, List.nil_append, read_plain_int, hall, and_255]
    rw [if_neg (by omega), if_pos (by omega)]
    norm_num
    omega
  · -- 2288 ≤ v ≤ 67823, lead byte 249
    have hall : ((v - 2288) >>> 8) % 256 = (v - 2288) / 256 := by
      rw [Nat.shiftRight_eq_div_pow]
      norm_num
      omega
    simp only [List.cons_append, List.nil_append, read_plain_int, hall, and_255]
    norm_num
    omega
  · -- lead byte 250, 3 payload bytes
    simp only [List.cons_append, List.nil_append, read_plain_int]
    norm_num
    rw [beOr3 _ _ _ (Nat.mod_lt _ (by norm_num)) (Nat.mod_lt _ (by norm_num))]
    simp only [Nat.shiftRight_eq_div_pow]
    norm_num
    omega
  · -- lead byte 251, 4 payload bytes
    simp only [List.cons_append, List.nil_append, read_plain_int]
    norm_num
    rw [beOr4 _ _ _ _ (Nat.mod_lt _ (by norm_num)) (Nat.mod_lt _ (by norm_num))
      (Nat.mod_lt _ (by norm_num))]
    simp only [Nat.shiftRight_eq_div_pow]
    norm_num
    omega
  · -- lead byte 252, 5 payload bytes
    simp only [List.cons_append, List.nil_append, read_plain_int]
    norm_num
    rw [beOr5 _ _ _ _ _ (Nat.mod_lt _ (by norm_num)) (Nat.mod_lt _ (by norm_num))
      (Nat.mod_lt _ (by norm_num)) (Nat.mod_lt _ (by norm_num))]
    simp only [Nat.shiftRight_eq_div_pow]
    norm_num
    omega
  · -- lead byte 253, 6 payload bytes
    simp only [List.cons_append, List.nil_append, read_plain_int]
    norm_num
    rw [beOr6 _ _ _ _ _ _ (Nat.mod_lt _ (by norm_num)) (Nat.mod_lt _ (by norm_num))
      (Nat.mod_lt _ (by norm_num)) (Nat.mod_lt _ (by norm_num)) (Nat.mod_lt _ (by norm_num))]
    simp only [Nat.shiftRight_eq_div_pow]
    norm_num
    omega
  · -- lead byte 254, 7 payload bytes
    simp only [List.cons_append, List.nil_append, read_plain_int]
    norm_num
    rw [beOr7 _ _ _ _ _ _ _ (Nat.mod_lt _ (by norm_num)) (Nat.mod_lt _ (by norm_num))
      (Nat.mod_lt _ (by norm_num)) (Nat.mod_lt _ (by norm_num)) (Nat.mod_lt _ (by norm_num))
      (Nat.mod_lt _ (by norm_num))]
    simp only [Nat.shiftRight_eq_div_pow]
    norm_num
    omega
  · -- lead byte 255, 8 payload bytes
    simp only [List.cons_append, List.nil_append, read_plain_int]
    norm_num
    rw [beOr8 _ _ _ _ _ _ _ _ (Nat.mod_lt _ (by norm_num)) (Nat.mod_lt _ (by norm_num))
      (Nat.mod_lt _ (by norm_num)) (Nat.mod_lt _ (by norm_num)) (Nat.mod_lt _ (by norm_num))
      (Nat.mod_lt _ (by norm_num)) (Nat.mod_lt _ (by norm_num))]
    simp only [Nat.shiftRight_eq_div_pow]
    norm_num
    omega

/-! ### Big-endian byte-list monotonicity -/

/-- The `k` big-endian bytes of `x` (highest first), as emitted by the wide
branches of `write_int`. -/
def beBytes : Nat → Nat → List Nat
  | 0, _ => []
  | k + 1, x => (x >>> (8 * k)) % 256 :: beBytes k x

theorem mod_shiftRight (x m j : Nat) : (x % 2 ^ m) >>> j = (x >>> j) % 2 ^ (m - j) := by
  apply Nat.eq_of_testBit_eq
  intro i
  simp only [Nat.testBit_mod_two_pow, Nat.testBit_shiftRight]
  congr 1
  exact decide_eq_decide.mpr (by omega)

theorem shiftRight_mod256_stable (x j : Nat) :
    ((x % 2 ^ (j + 8)) >>> j) % 256 = (x >>> j) % 256 := by
  rw [mod_shiftRight]
  have h8 : j + 8 - j = 8 := by omega
  rw [h8]
  norm_num [Nat.mod_mod_of_dvd]

theorem beBytes_congr : ∀ (k x y : Nat), x % 2 ^ (8 * k) = y % 2 ^ (8 * k) →
    beBytes k x = beBytes k y := by
  intro k
  induction k with
  | zero => intro x y _; rfl
  | succ k ih =>
    intro x y h
    have hdvd : (2 : Nat) ^ (8 * k) ∣ 2 ^ (8 * (k + 1)) := pow_dvd_pow 2 (by omega)
    have hlow : x % 2 ^ (8 * k) = y % 2 ^ (8 * k) := by
      rw [← Nat.mod_mod_of_dvd x hdvd, ← Nat.mod_mod_of_dvd y hdvd, h]
    have hhead : (x >>> (8 * k)) % 256 = (y >>> (8 * k)) % 256 := by
      have hx := shiftRight_mod256_stable x (8 * k)
      have hy := shiftRight_mod256_stable y (8 * k)
      have he : 8 * k + 8 = 8 * (k + 1) := by ring
      rw [he] at hx hy
      rw [← hx, ← hy, h]
    simp only [beBytes, hhead, ih x y hlow]

theorem beBytes_mod (k x : Nat) : beBytes k (x % 2 ^ (8 * k)) = beBytes k x :=
  beBytes_congr k _ x (by simp [Nat.mod_mod_of_dvd])

theorem lexLt_beBytes : ∀ (k u v : Nat), u < v → v < 2 ^ (8 * k) →
    lexLt (beBytes k u) (beBytes k v) = true := by
  intro k
  induction k with
  | zero => intro u v huv hv; simp at hv; omega
  | succ k ih =>
    intro u v huv hv
    have hM : (2 : Nat) ^ (8 * (k + 1)) = 2 ^ (8 * k) * 256 := by
      rw [show 8 * (k + 1) = 8 * k + 8 by ring, pow_add]
      norm_num
    have hMpos : 0 < 2 ^ (8 * k) := Nat.pos_pow_of_pos _ (by omega)
    have hud := Nat.div_add_mod u (2 ^ (8 * k))
    have hvd := Nat.div_add_mod v (2 ^ (8 * k))
    have hu8 : u >>> (8 * k) < 256 := by
      rw [Nat.shiftRight_eq_div_pow]
      apply Nat.div_lt_of_lt_mul
      calc u < v := huv
        _ < 2 ^ (8 * k) * 256 := hM ▸ hv
    have hv8 : v >>> (8 * k) < 256 := by
      rw [Nat.shiftRight_eq_div_pow]
      exact Nat.div_lt_of_lt_mul (hM ▸ hv)
    simp only [beBytes, lexLt_cons_iff]
    rcases Nat.lt_trichotomy (u >>> (8 * k)) (v >>> (8 * k)) with hlt | heq | hgt
    · left
      rw [Nat.mod_eq_of_lt hu8, Nat.mod_eq_of_lt hv8]
      exact hlt
    · right
      refine ⟨by rw [heq], ?_⟩
      rw [← beBytes_mod k u, ← beBytes_mod k v]
      simp only [Nat.shiftRight_eq_div_pow] at heq
      rw [heq] at hud
      apply ih
      · omega
      · exact Nat.mod_lt _ hMpos
    · exfalso
      simp only [Nat.shiftRight_eq_div_pow] at hgt
      have hle : u / 2 ^ (8 * k) ≤ v / 2 ^ (8 * k) :=
        Nat.div_le_div_right (Nat.le_of_lt huv)
      omega

theorem lexLt_cons_same (c : Nat) (as bs : List Nat) (h : lexLt as bs = true) :
    lexLt (c :: as) (c :: bs) = true := by
  rw [lexLt_cons_iff]
  exact Or.inr ⟨rfl, h⟩

theorem beBytes4_eq (x : Nat) :
    beBytes 4 x = [(x >>> 24) % 256, (x >>> 16) % 256, (x >>> 8) % 256, x % 256] := by
  simp [beBytes]

theorem beBytes5_eq (x : Nat) :
    beBytes 5 x = [(x >>> 32) % 256, (x >>> 24) % 256, (x >>> 16) % 256, (x >>> 8) % 256,
      x % 256] := by
  simp [beBytes]

theorem beBytes6_eq (x : Nat) :
    beBytes 6 x = [(x >>> 40) % 256, (x >>> 32) % 256, (x >>> 24) % 256, (x >>> 16) % 256,
      (x >>> 8) % 256, x % 256] := by
  simp [beBytes]

theorem beBytes7_eq (x : Nat) :
    beBytes 7 x = [(x >>> 48) % 256, (x >>> 40) % 256, (x >>> 32) % 256, (x >>> 24) % 256,
      (x >>> 16) % 256, (x >>> 8) % 256, x % 256] := by
  simp [beBytes]

theorem beBytes8_eq (x : Nat) :
    beBytes 8 x = [(x >>> 56) % 256, (x >>> 48) % 256, (x >>> 40) % 256, (x >>> 32) % 256,
      (x >>> 24) % 256, (x >>> 16) % 256, (x >>> 8) % 256, x % 256] := by
  simp [beBytes]

theorem lexLt_nil_cons_iff (b : Nat) (bs : List Nat) : lexLt [] (b :: bs) = true ↔ True := by
  simp [lexLt]

theorem lexLt_nil_nil_iff : lexLt [] [] = true ↔ False := by
  simp [lexLt]

set_option maxHeartbeats 8000000 in
set_option maxRecDepth 4000 in
/-- `write_int` preserves numeric order under unsigned lexicographic byte
comparison: the core §4.2 monotonicity property. -/
theorem write_int_lex_mono (u v : Nat) (huv : u < v) (hv : v < 2 ^ 64) :
    lexLt (write_int u) (write_int v) = true := by
  unfold write_int
  split_ifs
  all_goals first
    | (apply lexLt_cons_same _ _ _ ?_; rw [← beBytes4_eq, ← beBytes4_eq];
        exact lexLt_beBytes 4 u v huv (by omega))
    | (apply lexLt_cons_same _ _ _ ?_; rw [← beBytes5_eq, ← beBytes5_eq];
        exact lexLt_beBytes 5 u v huv (by omega))
    | (apply lexLt_cons_same _ _ _ ?_; rw [← beBytes6_eq, ← beBytes6_eq];
        exact lexLt_beBytes 6 u v huv (by omega))
    | (apply lexLt_cons_same _ _ _ ?_; rw [← beBytes7_eq, ← beBytes7_eq];
        exact lexLt_beBytes 7 u v huv (by omega))
    | (apply lexLt_cons_same _ _ _ ?_; rw [← beBytes8_eq, ← beBytes8_eq];
        exact lexLt_beBytes 8 u v huv (by omega))
    | skip
  all_goals simp only [lexLt_cons_iff, lexLt_nil_cons_iff, lexLt_nil_nil_iff,
    Nat.shiftRight_eq_div_pow, and_255, true_and, and_true, false_and, and_false,
    true_or, or_true, false_or, or_false]
  all_goals omega

/-! ### `write_str`: the bit-interleaved self-delimiting stream encoder (§4.4)

Transcription of `write_str` with a zero `kind` argument.  The loop state is
`(shift, trailer)`; `(uint8_t)(o << (7 - shift))` truncates to 8 bits, hence
`% 256`. -/

def write_str_go : List Nat → Nat → Nat → List Nat
  | [], shift, trailer =>
    if 1 < shift then (if trailer ≠ 0 then [trailer, 0] else [trailer]) else [0]
  | o :: rest, shift, trailer =>
    if shift < 7 then
      (0x80 ||| trailer ||| (o >>> shift)) ::
        write_str_go rest (shift + 1) ((o <<< (7 - shift)) % 256)
    else
      (0x80 ||| trailer ||| (o >>> shift)) :: (0x80 ||| o) :: write_str_go rest 1 0

def write_str (bs : List Nat) : List Nat := write_str_go bs 1 0

/-! ### `read_str`: the stream decoder

Transcription of `read_str`.  The C loop reads a byte `cb`; a zero byte (or
end of input) terminates; otherwise the original byte is reassembled from the
previous byte `lb` and `cb` at the current shift.  At `shift == 7` a fresh
lead byte is read, and a zero there also terminates.  Note that when the
terminator arrives while a lead byte is pending (`shift < 7` path), the
pending byte is discarded. -/

def read_str_loop : Nat → Nat → List Nat → List Nat × List Nat
  | _, _, [] => ([], [])
  | lb, shift, cb :: rest =>
    if cb = 0 then ([], rest)
    else
      let ch := ((lb <<< shift) % 256) ||| ((cb &&& 0x7f) >>> (7 - shift))
      if shift < 7 then
        let p := read_str_loop cb (shift + 1) rest
        (ch :: p.1, p.2)
      else
        match rest with
        | [] => ([ch], [])
        | lb2 :: rest2 =>
          if lb2 = 0 then ([ch], rest2)
          else
            let p := read_str_loop lb2 1 rest2
            (ch :: p.1, p.2)

def read_str : List Nat → Option (List Nat × List Nat)
  | [] => none
  | lb :: rest => if lb = 0 then some ([], rest) else some (read_str_loop lb 1 rest)

/-- The byte list that `read_str` recovers from `write_str bs`: all of `bs`,
except that the final byte is silently dropped when the loop ends at
`shift ∈ [2,7]` with a zero trailer (the trailer then doubles as the
terminator and the decoder never reassembles the pending byte).
`s` is the encoder shift for the next input byte, `o_prev` the last byte
already emitted. -/
def expOut : Nat → List Nat → Nat → List Nat
  | s, [], o_prev => if (o_prev <<< (8 - s)) % 256 = 0 then [] else [o_prev]
  | s, o :: rest, o_prev =>
    if s < 7 then o_prev :: expOut (s + 1) rest o
    else
      match rest with
      | [] => [o_prev, o]
      | o2 :: rest2 => o_prev :: o :: expOut 2 rest2 o2

def strDecoded : List Nat → List Nat
  | [] => []
  | o :: rest => expOut 2 rest o

/-- `true` when the stream of `bs` survives the decoder: the final trailer is
nonzero or the encoder ends a 7-byte group exactly. -/
def tailOK : Nat → List Nat → Nat → Bool
  | s, [], o_prev => decide ((o_prev <<< (8 - s)) % 256 ≠ 0)
  | s, o :: rest, o_prev =>
    if s < 7 then tailOK (s + 1) rest o
    else
      match rest with
      | [] => true
      | o2 :: rest2 => tailOK 2 rest2 o2

def strOK : List Nat → Bool
  | [] => true
  | o :: rest => tailOK 2 rest o

example : write_str [] = [0] := by decide
example : write_str [1] = [0x80, 0x40, 0] := by decide
example : write_str [4] = [0x82, 0] := by decide
example : read_str (write_str [1] ++ [9, 9]) = some ([1], [9, 9]) := by decide
example : read_str (write_str [4] ++ [9]) = some ([], [9]) := by decide
example : read_str (write_str [1, 2, 3, 4, 5, 6, 7, 9] ++ [9]) =
    some ([1, 2, 3, 4, 5, 6, 7, 9], [9]) := by decide
example : read_str (write_str [1, 2, 3, 4, 5, 6, 7, 8] ++ [9]) =
    some ([1, 2, 3, 4, 5, 6, 7], [9]) := by decide
example : read_str (write_str [10, 20, 30, 40, 50, 60, 70] ++ [9]) =
    some ([10, 20, 30, 40, 50, 60, 70], [9]) := by decide
example : strDecoded [4] = [] := by decide
example : strDecoded [1] = [1] := by decide
example : strOK [4] = false := by decide
example : strOK [1] = true := by decide
example : read_str (write_str [97, 0] ++ [7]) = some (strDecoded [97, 0], [7]) := by decide

/-! ### Byte-reassembly helper lemmas for the stream decoder -/

theorem and_127 (x : Nat) : x &&& 127 = x % 2 ^ 7 := by
  have h := Nat.and_pow_two_sub_one_eq_mod x 7
  norm_num at h ⊢
  exact h

theorem lor128_ne_zero (a : Nat) : (0x80 ||| a) ≠ 0 := by
  intro h
  have h7 : ((0x80 : Nat) ||| a).testBit 7 = true := by
    simp only [Nat.testBit_lor]
    have hb : (0x80 : Nat).testBit 7 = true := by decide
    simp [hb]
  rw [h] at h7
  simp at h7

theorem lor128_ne_zero₂ (a b : Nat) : (0x80 ||| a ||| b) ≠ 0 := by
  rw [Nat.or_assoc]
  exact lor128_ne_zero _

/-- The truncated shifted trailer keeps its divisibility: `2^j` divides
`(x <<< j) % 2^m` whenever `j ≤ m`. -/
theorem shl_mod_mod (x j m : Nat) (hj : j ≤ m) : (x <<< j) % 2 ^ m % 2 ^ j = 0 := by
  rw [Nat.shiftLeft_eq]
  have hsplit : (2 : Nat) ^ m = 2 ^ (m - j) * 2 ^ j := by rw [← pow_add]; congr 1; omega
  rw [hsplit, Nat.mul_mod_mul_right]
  exact Nat.mul_mod_left _ _

/-- High part of the reassembled byte: shifting the lead byte left by the
decoder shift and truncating to 8 bits recovers the high bits of `o`. -/
theorem chHigh (d o lbt : Nat) (hd1 : 1 ≤ d) (hd7 : d ≤ 7) (ho : o < 256)
    (hlbt : lbt % 2 ^ (8 - d) = 0) :
    ((0x80 ||| lbt ||| (o >>> d)) <<< d) % 256 = 2 ^ d * (o / 2 ^ d) := by
  have h256 : (256 : Nat) = 2 ^ 8 := by norm_num
  rw [lor_shiftLeft, lor_shiftLeft, h256, lor_mod_two_pow, lor_mod_two_pow]
  have h1 : ((0x80 : Nat) <<< d) % 2 ^ 8 = 0 := by
    rw [Nat.shiftLeft_eq]
    apply Nat.mod_eq_zero_of_dvd
    have he : (0x80 : Nat) * 2 ^ d = 2 ^ (7 + d) := by rw [pow_add]; norm_num
    rw [he]
    exact pow_dvd_pow 2 (by omega)
  have h2 : (lbt <<< d) % 2 ^ 8 = 0 := by
    obtain ⟨m, hm⟩ := Nat.dvd_of_mod_eq_zero hlbt
    rw [hm, Nat.shiftLeft_eq]
    apply Nat.mod_eq_zero_of_dvd
    have he : 2 ^ (8 - d) * m * 2 ^ d = 2 ^ 8 * m := by
      rw [Nat.mul_comm _ m, Nat.mul_assoc, ← pow_add]
      have : 8 - d + d = 8 := by omega
      rw [this, Nat.mul_comm]
    rw [he]
    exact dvd_mul_right (2 ^ 8) m
  have h3 : ((o >>> d) <<< d) % 2 ^ 8 = 2 ^ d * (o / 2 ^ d) := by
    rw [Nat.shiftLeft_eq, Nat.shiftRight_eq_div_pow]
    rw [Nat.mod_eq_of_lt (lt_of_le_of_lt (Nat.div_mul_le_self o _) (by omega))]
    ring
  rw [h1, h2, h3]
  simp

/-- Low part of the reassembled byte: the trailer byte carries the low bits
of `o` in its top positions; masking bit 7 away and shifting down recovers
`o % 2^d`. -/
theorem chLow (d o : Nat) (hd1 : 1 ≤ d) (hd7 : d ≤ 7) (ho : o < 256) :
    (((o <<< (7 - d)) % 256) &&& 0x7f) >>> (7 - d) = o % 2 ^ d := by
  rw [and_127, Nat.shiftLeft_eq]
  have h256 : (256 : Nat) = 2 ^ 8 := by norm_num
  rw [h256, Nat.mod_mod_of_dvd _ (pow_dvd_pow 2 (by omega))]
  have hsplit : (2 : Nat) ^ 7 = 2 ^ (7 - d) * 2 ^ d := by rw [← pow_add]; congr 1; omega
  rw [hsplit, Nat.mul_comm o, Nat.mul_mod_mul_left, Nat.shiftRight_eq_div_pow]
  exact Nat.mul_div_cancel_left _ (Nat.pos_pow_of_pos _ (by omega))

/-- The bits of the next input byte in the current stream byte lie strictly
below the extraction point and vanish. -/
theorem chPollution (d p : Nat) (hp : p < 2 ^ (7 - d)) : (p &&& 0x7f) >>> (7 - d) = 0 :=
  shiftRight_eq_zero_of_lt (lt_of_le_of_lt Nat.and_le_left hp)

theorem chSum (d o : Nat) (ho : o < 256) : (2 ^ d * (o / 2 ^ d)) ||| (o % 2 ^ d) = o := by
  rw [lor_eq_add_of_mod d _ _ (Nat.mul_mod_right _ _)
    (Nat.mod_lt _ (Nat.pos_pow_of_pos _ (by omega)))]
  exact Nat.div_add_mod o (2 ^ d)

/-- Reassembly when the current stream byte is the bare final trailer. -/
theorem ch_tail (d o lbt : Nat) (hd1 : 1 ≤ d) (hd6 : d ≤ 6) (ho : o < 256)
    (hlbt : lbt % 2 ^ (8 - d) = 0) :
    ((0x80 ||| lbt ||| (o >>> d)) <<< d) % 256 |||
      (((o <<< (7 - d)) % 256) &&& 0x7f) >>> (7 - d) = o := by
  rw [chHigh d o lbt hd1 (by omega) ho hlbt, chLow d o hd1 (by omega) ho]
  exact chSum d o ho

/-- Reassembly mid-stream: the current byte is `0x80 | trailer | (next >> s)`. -/
theorem ch_mid (d o lbt p : Nat) (hd1 : 1 ≤ d) (hd6 : d ≤ 6) (ho : o < 256)
    (hlbt : lbt % 2 ^ (8 - d) = 0) (hp : p < 2 ^ (7 - d)) :
    ((0x80 ||| lbt ||| (o >>> d)) <<< d) % 256 |||
      ((0x80 ||| ((o <<< (7 - d)) % 256) ||| p) &&& 0x7f) >>> (7 - d) = o := by
  have hand : ((0x80 ||| ((o <<< (7 - d)) % 256) ||| p) &&& 0x7f) >>> (7 - d)
      = (((o <<< (7 - d)) % 256) &&& 0x7f) >>> (7 - d) := by
    rw [lor_land, lor_land, lor_shiftRight, lor_shiftRight]
    have hz : (((0x80 : Nat) &&& 0x7f) >>> (7 - d)) = 0 := by
      have : ((0x80 : Nat) &&& 0x7f) = 0 := by decide
      simp [this]
    rw [hz, chPollution d p hp]
    simp
  rw [hand]
  exact ch_tail d o lbt hd1 hd6 ho hlbt

/-- Reassembly of the second byte of a 7-shift pair: at decoder shift 7 the
byte is recovered from the pair `(0x80|t|(o>>7), 0x80|o)`. -/
theorem ch_seven (o t : Nat) (ho : o < 256) (ht : t % 2 = 0) :
    ((0x80 ||| t ||| (o >>> 7)) <<< 7) % 256 ||| ((0x80 ||| o) &&& 0x7f) >>> (7 - 7) = o := by
  have h1 : ((0x80 ||| t ||| (o >>> 7)) <<< 7) % 256 = 2 ^ 7 * (o / 2 ^ 7) :=
    chHigh 7 o t (by omega) (by omega) ho (by simpa using ht)
  have h2 : ((0x80 ||| o) &&& 0x7f) >>> (7 - 7) = o % 2 ^ 7 := by
    rw [lor_land]
    have hz : ((0x80 : Nat) &&& 0x7f) = 0 := by decide
    rw [hz, and_127]
    simp
  rw [h1, h2]
  exact chSum 7 o ho

/-! ### The stream decode-encode correspondence -/

theorem expOut_cons (s o : Nat) (rest : List Nat) (o_prev : Nat) (h : s < 7) :
    expOut s (o :: rest) o_prev = o_prev :: expOut (s + 1) rest o := by
  cases rest with
  | nil => simp [expOut, h]
  | cons o2 rest2 => simp [expOut, h]

theorem tailOK_cons (s o : Nat) (rest : List Nat) (o_prev : Nat) (h : s < 7) :
    tailOK s (o :: rest) o_prev = tailOK (s + 1) rest o := by
  cases rest with
  | nil => simp [tailOK, h]
  | cons o2 rest2 => simp [tailOK, h]

/-- Base case: decoding the encoder tail.  With a zero trailer the pending
byte is dropped; otherwise it is recovered from the trailer. -/
theorem read_write_go_nil (d o_prev lbt : Nat) (r : List Nat) (hd1 : 1 ≤ d) (hd6 : d ≤ 6)
    (ho : o_prev < 256) (hlbt : lbt % 2 ^ (8 - d) = 0) :
    read_str_loop (0x80 ||| lbt ||| (o_prev >>> d)) d
        (write_str_go [] (d + 1) ((o_prev <<< (7 - d)) % 256) ++ r) =
      (expOut (d + 1) [] o_prev, r) := by
  have h8 : 8 - (d + 1) = 7 - d := by omega
  simp only [write_str_go, expOut, h8]
  rw [if_pos (by omega : 1 < d + 1)]
  by_cases ht : (o_prev <<< (7 - d)) % 256 = 0
  · rw [ht]
    simp only [ne_eq, not_true_eq_false, if_false, ite_true, List.cons_append,
      List.nil_append]
    simp [read_str_loop, ht]
  · rw [if_pos ?hcond]
    case hcond => simpa using ht
    simp only [List.cons_append, List.nil_append]
    simp only [read_str_loop]
    rw [if_neg ht, if_pos (by omega : d < 7)]
    rw [ch_tail d o_prev lbt hd1 hd6 ho hlbt]
    simp [ht]

/-- Main invariant: mid-stream, the decoder holding the last emitted byte at
shift `d` recovers the pending byte and continues in lockstep with the
encoder. -/
theorem read_write_go : ∀ (n : Nat) (rest : List Nat) (d o_prev lbt : Nat) (r : List Nat),
    rest.length ≤ n → 1 ≤ d → d ≤ 6 → o_prev < 256 → (∀ b ∈ rest, b < 256) →
    lbt % 2 ^ (8 - d) = 0 →
    read_str_loop (0x80 ||| lbt ||| (o_prev >>> d)) d
        (write_str_go rest (d + 1) ((o_prev <<< (7 - d)) % 256) ++ r) =
      (expOut (d + 1) rest o_prev, r) := by
  intro n
  induction n with
  | zero =>
    intro rest d o_prev lbt r hlen hd1 hd6 ho hrest hlbt
    have : rest = [] := List.length_eq_zero.mp (by omega)
    subst this
    exact read_write_go_nil d o_prev lbt r hd1 hd6 ho hlbt
  | succ n ih =>
    intro rest d o_prev lbt r hlen hd1 hd6 ho hrest hlbt
    cases rest with
    | nil => exact read_write_go_nil d o_prev lbt r hd1 hd6 ho hlbt
    | cons o rest2 =>
      have hobyte : o < 256 := hrest o (by simp)
      have hrest2 : ∀ b ∈ rest2, b < 256 := fun b hb => hrest b (by simp [hb])
      have htr_lt : (o_prev <<< (7 - d)) % 256 < 256 := Nat.mod_lt _ (by norm_num)
      by_cases hlt : d + 1 < 7
      · -- one byte emitted, shift advances
        simp only [write_str_go]
        rw [if_pos hlt]
        simp only [List.cons_append]
        simp only [read_str_loop]
        rw [if_neg (lor128_ne_zero₂ _ _), if_pos (by omega : d < 7)]
        have hp : o >>> (d + 1) < 2 ^ (7 - d) := by
          rw [Nat.shiftRight_eq_div_pow]
          apply Nat.div_lt_of_lt_mul
          have he : (2 : Nat) ^ (d + 1) * 2 ^ (7 - d) = 2 ^ 8 := by
            rw [← pow_add]
            congr 1
            omega
          calc o < 256 := hobyte
            _ = 2 ^ 8 := by norm_num
            _ = 2 ^ (d + 1) * 2 ^ (7 - d) := he.symm
        rw [ch_mid d o_prev lbt (o >>> (d + 1)) hd1 hd6 ho hlbt hp]
        have h7 : 7 - (d + 1) = 7 - d - 1 := by omega
        have hrec := ih rest2 (d + 1) o ((o_prev <<< (7 - d)) % 256) r
          (by simpa using Nat.le_of_succ_le_succ (by simpa using hlen))
          (by omega) (by omega) hobyte hrest2
          (by
            have h8 : 8 - (d + 1) = 7 - d := by omega
            rw [h8]
            exact shl_mod_mod o_prev (7 - d) 8 (by omega))
        rw [hrec, expOut_cons (d + 1) o rest2 o_prev hlt]
      · -- d = 6: two bytes emitted, group closes
        have hd6e : d = 6 := by omega
        subst hd6e
        simp only [write_str_go]
        rw [if_neg (by omega : ¬ 6 + 1 < 7)]
        simp only [List.cons_append]
        simp only [read_str_loop]
        rw [if_neg (lor128_ne_zero₂ _ _), if_pos (by omega : (6 : Nat) < 7)]
        have hp : o >>> (6 + 1) < 2 ^ (7 - 6) := by
          rw [Nat.shiftRight_eq_div_pow]
          omega
        rw [ch_mid 6 o_prev lbt (o >>> (6 + 1)) (by omega) (by omega) ho hlbt hp]
        -- second decoder step at shift 7 is already unfolded
        rw [if_neg (lor128_ne_zero _), if_neg (by omega : ¬ (7 : Nat) < 7)]
        have hteven : ((o_prev <<< (7 - 6)) % 256) % 2 = 0 := by
          have := shl_mod_mod o_prev (7 - 6) 8 (by omega)
          norm_num at this ⊢
          omega
        rw [ch_seven o ((o_prev <<< (7 - 6)) % 256) hobyte hteven]
        cases rest2 with
        | nil =>
          simp only [write_str_go]
          rw [if_neg (by omega : ¬ 1 < 1)]
          simp only [List.cons_append, List.nil_append, if_pos rfl]
          simp [expOut]
        | cons o2 rest3 =>
          have ho2 : o2 < 256 := hrest2 o2 (by simp)
          have hrest3 : ∀ b ∈ rest3, b < 256 := fun b hb => hrest2 b (by simp [hb])
          simp only [write_str_go]
          rw [if_pos (by omega : 1 < 7)]
          simp only [List.cons_append]
          rw [if_neg (lor128_ne_zero₂ _ _)]
          have hrec := ih rest3 1 o2 0 r
            (by simp at hlen; omega) (by omega) (by omega) ho2 hrest3 (by simp)
          rw [hrec]
          simp [expOut]

/-- Decoding an encoded stream followed by arbitrary residual bytes consumes
exactly the stream and recovers `strDecoded bs`. -/
theorem read_write_str (bs : List Nat) (r : List Nat) (h : ∀ b ∈ bs, b < 256) :
    read_str (write_str bs ++ r) = some (strDecoded bs, r) := by
  cases bs with
  | nil =>
    simp only [write_str, write_str_go, strDecoded]
    rw [if_neg (by omega : ¬ 1 < 1)]
    simp [read_str]
  | cons o rest =>
    have hobyte : o < 256 := h o (by simp)
    have hrest : ∀ b ∈ rest, b < 256 := fun b hb => h b (by simp [hb])
    simp only [write_str, write_str_go, strDecoded]
    rw [if_pos (by omega : 1 < 7)]
    simp only [List.cons_append, read_str]
    rw [if_neg (lor128_ne_zero₂ _ _)]
    have hrec := read_write_go rest.length rest 1 o 0 r (Nat.le_refl _)
      (by omega) (by omega) hobyte hrest (by simp)
    rw [hrec]

theorem le128_lor (a : Nat) : 128 ≤ 0x80 ||| a := by
  have h7 : ((0x80 : Nat) ||| a).testBit 7 = true := by
    simp only [Nat.testBit_lor]
    have hb : (0x80 : Nat).testBit 7 = true := by decide
    simp [hb]
  have hge := Nat.testBit_implies_ge h7
  simpa using hge

theorem le128_lor₂ (a b : Nat) : 128 ≤ 0x80 ||| a ||| b := by
  rw [Nat.or_assoc]
  exact le128_lor _

/-- When the stream survives (`tailOK`), the decoder recovers every byte. -/
theorem expOut_of_tailOK : ∀ (n : Nat) (rest : List Nat) (s o_prev : Nat),
    rest.length ≤ n → 1 ≤ s → s ≤ 7 → tailOK s rest o_prev = true →
    expOut s rest o_prev = o_prev :: rest := by
  intro n
  induction n with
  | zero =>
    intro rest s o_prev hlen hs1 hs7 hok
    have : rest = [] := List.length_eq_zero.mp (by omega)
    subst this
    simp only [tailOK, decide_eq_true_eq] at hok
    simp [expOut, hok]
  | succ n ih =>
    intro rest s o_prev hlen hs1 hs7 hok
    cases rest with
    | nil =>
      simp only [tailOK, decide_eq_true_eq] at hok
      simp [expOut, hok]
    | cons o rest2 =>
      by_cases hs : s < 7
      · rw [tailOK_cons s o rest2 o_prev hs] at hok
        rw [expOut_cons s o rest2 o_prev hs]
        rw [ih rest2 (s + 1) o (by simp at hlen ⊢; omega) (by omega) (by omega) hok]
      · have hs7e : s = 7 := by omega
        subst hs7e
        cases rest2 with
        | nil => simp [expOut]
        | cons o2 rest3 =>
          have hok2 : tailOK 2 rest3 o2 = true := by
            simpa [tailOK] using hok
          simp only [expOut]
          rw [if_neg (by omega : ¬ (7 : Nat) < 7)]
          simp only [ih rest3 2 o2 (by simp at hlen ⊢; omega) (by omega) (by omega) hok2]

/-- `strDecoded` is the identity exactly on surviving streams. -/
theorem strDecoded_of_strOK (bs : List Nat) (h : strOK bs = true) : strDecoded bs = bs := by
  cases bs with
  | nil => rfl
  | cons o rest =>
    simp only [strOK] at h
    simp only [strDecoded]
    exact expOut_of_tailOK rest.length rest 2 o (Nat.le_refl _) (by omega) (by omega) h

/-- Structure of the encoder output: loop bytes all have the high bit set,
then either a single `0x00` terminator, or one nonzero trailer byte followed
by the terminator. -/
theorem write_str_go_split : ∀ (bs : List Nat) (s t : Nat), 1 ≤ s → s ≤ 7 → t < 256 →
    (∀ b ∈ bs, b < 256) →
    ∃ mid tail, write_str_go bs s t = mid ++ tail ∧
      (∀ b ∈ mid, 128 ≤ b ∧ b < 256) ∧
      (tail = [0] ∨ ∃ tr, tr ≠ 0 ∧ tr < 256 ∧ tail = [tr, 0]) := by
  intro bs
  induction bs with
  | nil =>
    intro s t hs1 hs7 ht hbytes
    by_cases h1 : 1 < s
    · by_cases h0 : t = 0
      · refine ⟨[], [0], ?_, by simp, Or.inl rfl⟩
        simp [write_str_go, h1, h0]
      · refine ⟨[], [t, 0], ?_, by simp, Or.inr ⟨t, h0, ht, rfl⟩⟩
        simp [write_str_go, h1, h0]
    · refine ⟨[], [0], ?_, by simp, Or.inl rfl⟩
      simp [write_str_go, h1]
  | cons o rest ih =>
    intro s t hs1 hs7 ht hbytes
    have hob : o < 256 := hbytes o (by simp)
    have hrest : ∀ b ∈ rest, b < 256 := fun b hb => hbytes b (by simp [hb])
    have hhead_ge : 128 ≤ 0x80 ||| t ||| (o >>> s) := le128_lor₂ _ _
    have hshr : o >>> s < 256 := by
      rw [Nat.shiftRight_eq_div_pow]
      have := Nat.div_le_self o (2 ^ s)
      omega
    have hhead_lt : (0x80 ||| t ||| (o >>> s)) < 256 := by
      have h1 : (0x80 : Nat) ||| t < 2 ^ 8 := Nat.or_lt_two_pow (by norm_num) (by omega)
      have h2 : ((0x80 : Nat) ||| t) ||| (o >>> s) < 2 ^ 8 :=
        Nat.or_lt_two_pow h1 (by omega)
      simpa using h2
    by_cases hs : s < 7
    · obtain ⟨mid, tl, heq, hmid, htl⟩ :=
        ih (s + 1) ((o <<< (7 - s)) % 256) (by omega) (by omega)
          (Nat.mod_lt _ (by norm_num)) hrest
      refine ⟨(0x80 ||| t ||| (o >>> s)) :: mid, tl, ?_, ?_, htl⟩
      · simp [write_str_go, hs, heq]
      · intro b hb
        rcases List.mem_cons.mp hb with hb | hb
        · subst hb; exact ⟨hhead_ge, hhead_lt⟩
        · exact hmid b hb
    · obtain ⟨mid, tl, heq, hmid, htl⟩ := ih 1 0 (by omega) (by omega) (by norm_num) hrest
      have hsnd_ge : 128 ≤ 0x80 ||| o := le128_lor _
      have hsnd_lt : (0x80 : Nat) ||| o < 256 := by
        have := Nat.or_lt_two_pow (show (0x80 : Nat) < 2 ^ 8 by norm_num)
          (show o < 2 ^ 8 by omega)
        simpa using this
      refine ⟨(0x80 ||| t ||| (o >>> s)) :: (0x80 ||| o) :: mid, tl, ?_, ?_, htl⟩
      · simp [write_str_go, hs, heq]
      · intro b hb
        rcases List.mem_cons.mp hb with hb | hb
        · subst hb; exact ⟨hhead_ge, hhead_lt⟩
        · rcases List.mem_cons.mp hb with hb | hb
          · subst hb; exact ⟨hsnd_ge, hsnd_lt⟩
          · exact hmid b hb

/-! ### Element kind tags

Modelled from the spec: the header `centidb.h` defining `enum ElementKind` is
not part of `src/`; §4.3 fixes only the order
`SEP < NULL < NEG_TIME < NEG_INTEGER < BOOL < INTEGER < TIME < BLOB < TEXT < UUID`
and says implementations are free to choose numeric values consistent with
it.  The values below satisfy that order. -/

def KIND_SEP : Nat := 10
def KIND_NULL : Nat := 15
def KIND_NEG_TIME : Nat := 20
def KIND_NEG_INTEGER : Nat := 25
def KIND_BOOL : Nat := 30
def KIND_INTEGER : Nat := 35
def KIND_TIME : Nat := 40
def KIND_BLOB : Nat := 45
def KIND_TEXT : Nat := 50
def KIND_UUID : Nat := 55

/-! ### Timestamps -/

/-- A `datetime.datetime` as the calendar fields `write_time` reads, plus the
total seconds of `utcoffset()` (`none` for a naive datetime). -/
structure PyDateTime where
  year : Nat
  month : Nat
  day : Nat
  hour : Nat
  minute : Nat
  second : Nat
  microsecond : Nat
  utcoffset : Option Int
deriving DecidableEq

/-- Modelled from the spec: `timegm` is the C library routine computing
"seconds since the UNIX epoch treating the wall clock as UTC" (§4.5 step 1);
this is the standard Julian-day-number conversion. -/
def timegm (year month day hour minute second : Nat) : Int :=
  let a := (14 - month) / 12
  let y := year + 4800 - a
  let m := month + 12 * a - 3
  let jdn : Nat := day + (153 * m + 2) / 5 + 365 * y + y / 4 - y / 100 + y / 400 - 32045
  ((jdn : Int) - 2440588) * 86400 + 3600 * hour + 60 * minute + second

example : timegm 1970 1 1 0 0 0 = 0 := by decide
example : timegm 2013 7 15 12 30 5 = 1373891405 := by decide

/-- Modelled from the spec: `UTCOFFSET_SHIFT`/`UTCOFFSET_DIV` live in the
missing `centidb.h`; §4.5 fixes the intent `offset_quarters =
(utc_offset_seconds / 900) + 64` ("bias 64 quarter-hours"), so the shift is
64 and the divisor 900 (converting seconds to quarter hours, consistent with
the naive branch of `get_utcoffset_secs`, which returns seconds). -/
def UTCOFFSET_SHIFT : Int := 64

def UTCOFFSET_DIV : Int := 15 * 60

/-- `get_utcoffset_secs`: for a naive datetime the host's current UTC offset
in seconds (`utc - local`, external host state passed as `hostOffset`); for
an aware datetime the source divides `total_seconds()` by `15 * 60` before
returning.  C `long` division truncates toward zero, hence `Int.tdiv`.
`-1` doubles as the error sentinel, checked by the caller. -/
def get_utcoffset_secs (hostOffset : Int) (dt : PyDateTime) : Int :=
  match dt.utcoffset with
  | none => hostOffset
  | some off => off.tdiv (15 * 60)

/-- `write_time`: epoch milliseconds of the wall clock, shifted left 7 bits
and OR-ed with the biased offset field, then varint-coded under `TIME` or
`NEG_TIME`.  `ts <<= 7; ts |= offset_bits` on a multiple of 128 with
`0 ≤ offset_bits <= 0x7f` (asserted in the source) is addition, which is how
the two steps are embedded over `Int`. -/
def write_time (hostOffset : Int) (dt : PyDateTime) : Option (List Nat) :=
  let ts : Int := timegm dt.year dt.month dt.day dt.hour dt.minute dt.second
  let offset_secs := get_utcoffset_secs hostOffset dt
  if offset_secs = -1 then none
  else
    let offset_bits : Int := UTCOFFSET_SHIFT + offset_secs.tdiv UTCOFFSET_DIV
    let ts2 := ts * 1000 + (dt.microsecond / 1000 : Nat)
    let ts3 := ts2 * 128 + offset_bits
    if ts3 < 0 then some (KIND_NEG_TIME :: write_int (-ts3).toNat)
    else some (KIND_TIME :: write_int ts3.toNat)

/-! ### The element domain -/

/-- The Python values `c_encode_value` accepts: `None`, `bool`, `int`/`long`
(the embedded `Int` covers both), `str` (blob bytes), `unicode` (scalar
values), `uuid.UUID` (16 raw bytes), `datetime.datetime`. -/
inductive Elem where
  | vNull
  | vBool (b : Bool)
  | vInt (i : Int)
  | vBlob (bs : List Nat)
  | vText (cs : List Nat)
  | vUuid (bs : List Nat)
  | vTime (dt : PyDateTime)
deriving DecidableEq

/-! ### UTF-8

Modelled from the spec: §3 says Text is "a finite sequence of Unicode scalar
values; serialized via UTF-8"; the codec itself delegates to the Python
runtime (`PyUnicode_EncodeUTF8` / `PyUnicode_DecodeUTF8`, both "strict").
Standard UTF-8 with strict decoding. -/

def utf8EncodeChar (c : Nat) : List Nat :=
  if c < 128 then [c]
  else if c < 2048 then [192 + c / 64, 128 + c % 64]
  else if c < 65536 then [224 + c / 4096, 128 + c / 64 % 64, 128 + c % 64]
  else [240 + c / 262144, 128 + c / 4096 % 64, 128 + c / 64 % 64, 128 + c % 64]

def utf8Encode : List Nat → List Nat
  | [] => []
  | c :: cs => utf8EncodeChar c ++ utf8Encode cs

def utf8Cont (b : Nat) : Prop := 128 ≤ b ∧ b < 192

instance : DecidablePred utf8Cont := fun b => by unfold utf8Cont; infer_instance

/-- Decode one UTF-8 character: the scalar value and the remaining bytes. -/
def utf8DecodeOne : List Nat → Option (Nat × List Nat) := fun bs =>
  match bs with
  | [] => none
  | b0 :: rest =>
    if b0 < 128 then some (b0, rest)
    else if b0 < 194 then none
    else if b0 < 224 then
      match rest with
      | b1 :: rest2 =>
        if utf8Cont b1 then some (64 * (b0 - 192) + (b1 - 128), rest2) else none
      | [] => none
    else if b0 < 240 then
      match rest with
      | b1 :: b2 :: rest2 =>
        if utf8Cont b1 ∧ utf8Cont b2 ∧ ¬ (b0 = 224 ∧ b1 < 160) ∧
            ¬ (b0 = 237 ∧ 160 ≤ b1) then
          some (4096 * (b0 - 224) + 64 * (b1 - 128) + (b2 - 128), rest2)
        else none
      | _ => none
    else if b0 < 245 then
      match rest with
      | b1 :: b2 :: b3 :: rest2 =>
        if utf8Cont b1 ∧ utf8Cont b2 ∧ utf8Cont b3 ∧ ¬ (b0 = 240 ∧ b1 < 144) ∧
            ¬ (b0 = 244 ∧ 144 ≤ b1) then
          some (262144 * (b0 - 240) + 4096 * (b1 - 128) + 64 * (b2 - 128) + (b3 - 128),
            rest2)
        else none
      | _ => none
    else none

/-- Strict UTF-8 decoding of a whole byte string.  The fuel only bounds the
model's recursion; each character consumes at least one byte, so the byte
count always suffices. -/
def utf8DecodeGo : Nat → List Nat → Option (List Nat)
  | _, [] => some []
  | 0, _ :: _ => none
  | fuel + 1, b0 :: rest =>
    (utf8DecodeOne (b0 :: rest)).bind fun p =>
      (utf8DecodeGo fuel p.2).map (p.1 :: ·)

def utf8Decode (bs : List Nat) : Option (List Nat) := utf8DecodeGo bs.length bs

/-- A Unicode scalar value: in range and not a surrogate. -/
def ValidScalar (c : Nat) : Prop := c < 1114112 ∧ ¬ (55296 ≤ c ∧ c < 57344)

instance : DecidablePred ValidScalar := fun c => by unfold ValidScalar; infer_instance

example : utf8Decode (utf8Encode [97, 233, 0x4e2d, 0x1f600]) =
    some [97, 233, 0x4e2d, 0x1f600] := by decide
example : utf8Decode [195] = none := by decide
example : utf8Decode [237, 160, 128] = none := by decide

/-! ### `c_encode_value`, `c_encode_key`, `packs`

`c_encode_value` dispatches on the runtime type; in the embedding the
dispatch is the `Elem` constructor.  An encode failure (only possible for
timestamps here, via the `-1` sentinel) is `none`, matching the C `ret = 0`
path.  `host` is the host's current UTC offset, consulted only for naive
timestamps. -/

def c_encode_value (host : Int) : Elem → Option (List Nat)
  | .vNull => some [KIND_NULL]
  | .vBool b => some [KIND_BOOL, if b then 1 else 0]
  | .vInt i =>
    if i < 0 then some (KIND_NEG_INTEGER :: write_int (-i).toNat)
    else some (KIND_INTEGER :: write_int i.toNat)
  | .vBlob bs => some (KIND_BLOB :: write_str bs)
  | .vText cs => some (KIND_TEXT :: write_str (utf8Encode cs))
  | .vUuid bs => some (KIND_UUID :: write_str bs)
  | .vTime dt => write_time host dt

def c_encode_key (host : Int) : List Elem → Option (List Nat)
  | [] => some []
  | e :: rest =>
    (c_encode_value host e).bind fun b =>
      (c_encode_key host rest).map fun bs => b ++ bs

/-- The runtime shapes `packs` accepts as one batch entry: a tuple, or any
non-tuple value treated as a single element. -/
inductive PackItem where
  | one (e : Elem)
  | tup (t : List Elem)
deriving DecidableEq

/-- The second argument of `packs`: a list of entries, or a single entry. -/
inductive PackVal where
  | item (it : PackItem)
  | list (l : List PackItem)
deriving DecidableEq

/-- `tuplize`: a tuple is returned unchanged, anything else is wrapped into a
1-tuple. -/
def tuplize : PackItem → List Elem
  | .one e => [e]
  | .tup t => t

def encodeItem (host : Int) : PackItem → Option (List Nat)
  | .one e => c_encode_value host e
  | .tup t => c_encode_key host t

/-- Entries after the first, each preceded by the `KIND_SEP` separator
(`if(i) writer_putc(KIND_SEP)` in the source loop). -/
def packItemsRest (host : Int) : List PackItem → Option (List Nat)
  | [] => some []
  | i :: rest =>
    (encodeItem host i).bind fun b =>
      (packItemsRest host rest).map fun bs => (KIND_SEP :: b) ++ bs

def packItems (host : Int) : List PackItem → Option (List Nat)
  | [] => some []
  | i :: rest =>
    (encodeItem host i).bind fun b =>
      (packItemsRest host rest).map fun bs => b ++ bs

/-- `packs` (exposed as both `pack` and `packs`): prefix, then the entry or
`SEP`-separated entries. -/
def packs (host : Int) (pfx : List Nat) : PackVal → Option (List Nat)
  | .item it => (encodeItem host it).map (pfx ++ ·)
  | .list l => (packItems host l).map (pfx ++ ·)

/-! ### Decoding: `unpack`, `py_unpack`, `unpacks` -/

def read_int (junk : Nat) (negate : Bool) (bs : List Nat) : Option (Int × List Nat) :=
  (read_plain_int junk bs).map fun p => (if negate then -(p.1 : Int) else (p.1 : Int), p.2)

/-- One arm of the `switch(ch)` in `unpack`, for every tag except `KIND_SEP`
(handled by the loop).  `KIND_TIME`/`KIND_NEG_TIME` reach the `read_time`
stub, which never produces a value, so `arg` stays `NULL` and the element
fails.  A `UUID` payload of the wrong length makes the `uuid.UUID`
constructor raise.  An unknown tag is the `default:` error. -/
def decodeStep (junk : Nat) (ch : Nat) (rest : List Nat) : Option (Elem × List Nat) :=
  if ch = KIND_NULL then some (.vNull, rest)
  else if ch = KIND_INTEGER then
    (read_int junk false rest).map fun p => (.vInt p.1, p.2)
  else if ch = KIND_NEG_INTEGER then
    (read_int junk true rest).map fun p => (.vInt p.1, p.2)
  else if ch = KIND_BOOL then
    (read_plain_int junk rest).map fun p => (.vBool (p.1 != 0), p.2)
  else if ch = KIND_BLOB then
    (read_str rest).map fun p => (.vBlob p.1, p.2)
  else if ch = KIND_TEXT then
    (read_str rest).bind fun p => (utf8Decode p.1).map fun cs => (.vText cs, p.2)
  else if ch = KIND_NEG_TIME then none
  else if ch = KIND_TIME then none
  else if ch = KIND_UUID then
    (read_str rest).bind fun p =>
      if p.1.length = 16 then some (.vUuid p.1, p.2) else none
  else none

/-- The element loop of `unpack`: elements until `KIND_SEP` (consumed, stop)
or end of input.  Fuel bounds the recursion; every iteration consumes at
least the tag byte, so `input.length` fuel always suffices. -/
def unpack_go (junk : Nat) : Nat → List Nat → Option (List Elem × List Nat)
  | _, [] => some ([], [])
  | 0, _ :: _ => none
  | fuel + 1, ch :: rest =>
    if ch = KIND_SEP then some ([], rest)
    else
      (decodeStep junk ch rest).bind fun p =>
        (unpack_go junk fuel p.2).map fun q => (p.1 :: q.1, q.2)

def unpack (junk : Nat) (bs : List Nat) : Option (List Elem) :=
  (unpack_go junk bs.length bs).map (·.1)

inductive UnpackRes where
  | error
  | noMatch
  | ok (t : List Elem)
deriving DecidableEq

/-- `py_unpack`: raises (`error`) when the input is shorter than the prefix,
returns the `None` sentinel (`noMatch`) when the prefix does not match, else
decodes one tuple from after the prefix. -/
def py_unpack (junk : Nat) (pfx s : List Nat) : UnpackRes :=
  if s.length < pfx.length then .error
  else if pfx.isPrefixOf s then
    match unpack junk (s.drop pfx.length) with
    | some t => .ok t
    | none => .error
  else .noMatch

inductive UnpacksRes where
  | error
  | noMatch
  | ok (l : List (List Elem))
deriving DecidableEq

/-- The tuple loop of `unpacks`: `while(rdr.pos < rdr.size)` run `unpack`. -/
def unpacks_go (junk : Nat) : Nat → List Nat → Option (List (List Elem))
  | _, [] => some []
  | 0, _ :: _ => none
  | fuel + 1, b :: bs =>
    (unpack_go junk (b :: bs).length (b :: bs)).bind fun p =>
      (unpacks_go junk fuel p.2).map fun ts => p.1 :: ts

def unpacks (junk : Nat) (pfx s : List Nat) : UnpacksRes :=
  if s.length < pfx.length then .error
  else if pfx.isPrefixOf s then
    match unpacks_go junk (s.drop pfx.length).length (s.drop pfx.length) with
    | some l => .ok l
    | none => .error
  else .noMatch

/-! ### `decode_offsets` -/

def decode_offsets_go (junk : Nat) : Nat → Nat → List Nat → Option (List Nat × List Nat)
  | 0, _, bs => some ([], bs)
  | i + 1, pos, bs =>
    (read_plain_int junk bs).bind fun p =>
      (decode_offsets_go junk i (pos + p.1) p.2).map fun q => ((pos + p.1) :: q.1, q.2)

/-- `py_decode_offsets`: reads a count, then that many deltas, returning the
cumulative offsets (with leading 0) and `rdr.pos`, the bytes consumed. -/
def py_decode_offsets (junk : Nat) (s : List Nat) : Option (List Nat × Nat) :=
  (read_plain_int junk s).bind fun p =>
    (decode_offsets_go junk p.1 0 p.2).map fun q => (0 :: q.1, s.length - q.2.length)

example : py_decode_offsets 3 (write_int 1 ++ write_int 651 ++ [0, 0]) =
    some ([0, 651, 651 + 3, 651 + 3 + 3], 5) := by decide
example : py_decode_offsets 0 [1, 5] = some ([0], 1) := by decide

/-! ### The growable writer (`struct writer`) -/

/-- `struct writer`: a write position and the backing `PyString` buffer
(`buf.length` is `PyString_GET_SIZE`).  Fresh and resized bytes are
uninitialized in C; the model fills them with zeros, which no claim
observes. -/
structure Writer where
  pos : Nat
  buf : List Nat
deriving DecidableEq

def writer_init (initial : Nat) : Writer := ⟨0, List.replicate initial 0⟩

/-- `writer_grow`: double the buffer, capping growth at 512 extra bytes. -/
def writer_grow (w : Writer) : Writer :=
  let cursize := w.buf.length
  let newsize := if cursize * 2 > cursize + 512 then cursize + 512 else cursize * 2
  ⟨w.pos, w.buf ++ List.replicate (newsize - cursize) 0⟩

/-- `writer_putc`: grow when exactly one slack byte remains, then store. -/
def writer_putc (w : Writer) (o : Nat) : Writer :=
  let w2 := if 1 + w.pos = w.buf.length then writer_grow w else w
  ⟨w2.pos + 1, w2.buf.set w2.pos o⟩

/-- `writer_putchar`: the unchecked single-byte store. -/
def writer_putchar (w : Writer) (ch : Nat) : Writer := ⟨w.pos + 1, w.buf.set w.pos ch⟩

/-- The `while((PyString_GET_SIZE(wtr->s) - (wtr->pos + 1)) < size)` loop of
`writer_ensure`; the subtraction is signed `Py_ssize_t`, hence `Int`.  The
fuel only bounds the model's recursion: `writer_ensure` passes enough for
every buffer the codec creates (size ≥ 1), where the C loop terminates. -/
def writer_ensure_go : Nat → Writer → Int → Writer
  | 0, w, _ => w
  | fuel + 1, w, n =>
    if (w.buf.length : Int) - (w.pos + 1) < n then writer_ensure_go fuel (writer_grow w) n
    else w

def writer_ensure (w : Writer) (n : Int) : Writer :=
  writer_ensure_go (n.toNat + w.pos + 2) w n

/-- `writer_puts`: reserve, `memcpy` at `pos`, advance. -/
def writer_puts (w : Writer) (s : List Nat) : Writer :=
  let w2 := writer_ensure w s.length
  ⟨w2.pos + s.length, w2.buf.take w2.pos ++ s ++ w2.buf.drop (w2.pos + s.length)⟩

/-- The slack invariant: the write position strictly inside the buffer. -/
def winv (w : Writer) : Prop := w.pos < w.buf.length

/-! ### UTF-8 round trip -/

theorem utf8EncodeChar_lt (c : Nat) (hc : ValidScalar c) : ∀ b ∈ utf8EncodeChar c, b < 256 := by
  unfold utf8EncodeChar ValidScalar at *
  split_ifs with h1 h2 h3 <;> intro b hb <;> simp only [List.mem_cons,
    List.mem_singleton, List.not_mem_nil, or_false] at hb
  · omega
  · rcases hb with hb | hb <;> omega
  · rcases hb with hb | hb | hb <;> omega
  · rcases hb with hb | hb | hb | hb <;> omega

theorem utf8DecodeOne_enc (c : Nat) (hc : ValidScalar c) (rest : List Nat) :
    utf8DecodeOne (utf8EncodeChar c ++ rest) = some (c, rest) := by
  obtain ⟨hc1, hc2⟩ := hc
  unfold utf8EncodeChar
  split_ifs with h1 h2 h3
  · simp only [List.cons_append, List.nil_append]
    unfold utf8DecodeOne
    simp only []
    rw [if_pos h1]
  · simp only [List.cons_append, List.nil_append]
    unfold utf8DecodeOne
    simp only []
    rw [if_neg (by omega), if_neg (by omega), if_pos (by omega),
      if_pos (by unfold utf8Cont; omega)]
    have hval : 64 * (192 + c / 64 - 192) + (128 + c % 64 - 128) = c := by omega
    rw [hval]
  · simp only [List.cons_append, List.nil_append]
    unfold utf8DecodeOne
    simp only []
    rw [if_neg (by omega), if_neg (by omega), if_neg (by omega), if_pos (by omega),
      if_pos ?hcond]
    case hcond =>
      refine ⟨by unfold utf8Cont; omega, by unfold utf8Cont; omega, ?_, ?_⟩
      · intro ⟨ha, hb⟩
        omega
      · intro ⟨ha, hb⟩
        omega
    have hval : 4096 * (224 + c / 4096 - 224) + 64 * (128 + c / 64 % 64 - 128) +
        (128 + c % 64 - 128) = c := by omega
    rw [hval]
  · simp only [List.cons_append, List.nil_append]
    unfold utf8DecodeOne
    simp only []
    rw [if_neg (by omega), if_neg (by omega), if_neg (by omega), if_neg (by omega),
      if_pos (by omega), if_pos ?hcond2]
    case hcond2 =>
      refine ⟨by unfold utf8Cont; omega, by unfold utf8Cont; omega,
        by unfold utf8Cont; omega, ?_, ?_⟩
      · intro ⟨ha, hb⟩
        omega
      · intro ⟨ha, hb⟩
        omega
    have hval : 262144 * (240 + c / 262144 - 240) + 4096 * (128 + c / 4096 % 64 - 128) +
        64 * (128 + c / 64 % 64 - 128) + (128 + c % 64 - 128) = c := by omega
    rw [hval]

theorem utf8EncodeChar_ne_nil (c : Nat) : utf8EncodeChar c ≠ [] := by
  unfold utf8EncodeChar
  split_ifs <;> simp

theorem utf8DecodeGo_cons (c : Nat) (hc : ValidScalar c) (rest : List Nat) (fuel : Nat) :
    utf8DecodeGo (fuel + 1) (utf8EncodeChar c ++ rest) =
      (utf8DecodeGo fuel rest).map (c :: ·) := by
  obtain ⟨b0, tl, htl⟩ : ∃ b0 tl, utf8EncodeChar c = b0 :: tl := by
    cases he : utf8EncodeChar c with
    | nil => exact absurd he (utf8EncodeChar_ne_nil c)
    | cons b0 tl => exact ⟨b0, tl, rfl⟩
  rw [htl, List.cons_append, utf8DecodeGo, ← List.cons_append, ← htl,
    utf8DecodeOne_enc c hc rest]
  rfl

theorem utf8_roundtrip_go (cs : List Nat) : ∀ (fuel : Nat), (∀ c ∈ cs, ValidScalar c) →
    cs.length ≤ fuel → utf8DecodeGo fuel (utf8Encode cs) = some cs := by
  induction cs with
  | nil =>
    intro fuel _ _
    cases fuel <;> rfl
  | cons c cs ih =>
    intro fuel h hlen
    have hc : ValidScalar c := h c (by simp)
    have hcs : ∀ x ∈ cs, ValidScalar x := fun x hx => h x (by simp [hx])
    cases fuel with
    | zero => simp at hlen
    | succ f =>
      simp only [utf8Encode]
      rw [utf8DecodeGo_cons c hc _ f, ih f hcs (by simp at hlen; omega)]
      rfl

theorem utf8Encode_length_ge (cs : List Nat) : cs.length ≤ (utf8Encode cs).length := by
  induction cs with
  | nil => simp [utf8Encode]
  | cons c cs ih =>
    simp only [utf8Encode, List.length_append, List.length_cons]
    have h1 : 1 ≤ (utf8EncodeChar c).length := by
      cases he : utf8EncodeChar c with
      | nil => exact absurd he (utf8EncodeChar_ne_nil c)
      | cons b tl => simp
    omega

theorem utf8_roundtrip (cs : List Nat) (h : ∀ c ∈ cs, ValidScalar c) :
    utf8Decode (utf8Encode cs) = some cs :=
  utf8_roundtrip_go cs (utf8Encode cs).length h (utf8Encode_length_ge cs)

theorem utf8Encode_lt (cs : List Nat) (h : ∀ c ∈ cs, ValidScalar c) :
    ∀ b ∈ utf8Encode cs, b < 256 := by
  induction cs with
  | nil => simp [utf8Encode]
  | cons c cs ih =>
    intro b hb
    simp only [utf8Encode, List.mem_append] at hb
    rcases hb with hb | hb
    · exact utf8EncodeChar_lt c (h c (by simp)) b hb
    · exact ih (fun x hx => h x (by simp [hx])) b hb

/-! ### Decoding encoded elements -/

/-- Elements whose encoding the decoder can traverse without error (the
decoded *value* may still be wrong): anything but a timestamp (time decoding
is a stub), with byte-valued payloads, machine-range integers, and
text/uuid payloads whose bit-interleaved stream survives truncation (a
dropped final byte makes UTF-8 decoding or the UUID constructor fail). -/
def consElem : Elem → Prop
  | .vNull => True
  | .vBool _ => True
  | .vInt i => i.natAbs < 2 ^ 63
  | .vBlob bs => ∀ b ∈ bs, b < 256
  | .vText cs => (∀ c ∈ cs, ValidScalar c) ∧ strOK (utf8Encode cs) = true
  | .vUuid bs => bs.length = 16 ∧ (∀ b ∈ bs, b < 256) ∧ strOK bs = true
  | .vTime _ => False

/-- Elements that decode back to themselves: additionally excludes booleans
and integers of magnitude ≤ 240 (their decoded value is the uninitialized
`read_plain_int` local) and blob streams that drop their final byte. -/
def decElem : Elem → Prop
  | .vNull => True
  | .vBool _ => False
  | .vInt i => 240 < i.natAbs ∧ i.natAbs < 2 ^ 63
  | .vBlob bs => (∀ b ∈ bs, b < 256) ∧ strOK bs = true
  | .vText cs => (∀ c ∈ cs, ValidScalar c) ∧ strOK (utf8Encode cs) = true
  | .vUuid bs => bs.length = 16 ∧ (∀ b ∈ bs, b < 256) ∧ strOK bs = true
  | .vTime _ => False

instance : DecidablePred consElem := fun e => by
  cases e <;> unfold consElem <;> infer_instance

instance : DecidablePred decElem := fun e => by
  cases e <;> unfold decElem <;> infer_instance

theorem decElem_cons (e : Elem) (h : decElem e) : consElem e := by
  cases e <;> simp_all [decElem, consElem]

/-- One encoded element, followed by anything, decodes as one `unpack` switch
step that consumes exactly the encoding.  The decoded element agrees with the
original on the `decElem` domain. -/
theorem decodeStep_NULL (junk : Nat) (rest : List Nat) :
    decodeStep junk KIND_NULL rest = some (.vNull, rest) := rfl

theorem decodeStep_INTEGER (junk : Nat) (rest : List Nat) :
    decodeStep junk KIND_INTEGER rest =
      (read_int junk false rest).map fun p => (.vInt p.1, p.2) := rfl

theorem decodeStep_NEG_INTEGER (junk : Nat) (rest : List Nat) :
    decodeStep junk KIND_NEG_INTEGER rest =
      (read_int junk true rest).map fun p => (.vInt p.1, p.2) := rfl

theorem decodeStep_BOOL (junk : Nat) (rest : List Nat) :
    decodeStep junk KIND_BOOL rest =
      (read_plain_int junk rest).map fun p => (.vBool (p.1 != 0), p.2) := rfl

theorem decodeStep_BLOB (junk : Nat) (rest : List Nat) :
    decodeStep junk KIND_BLOB rest =
      (read_str rest).map fun p => (.vBlob p.1, p.2) := rfl

theorem decodeStep_TEXT (junk : Nat) (rest : List Nat) :
    decodeStep junk KIND_TEXT rest =
      (read_str rest).bind fun p =>
        (utf8Decode p.1).map fun cs => (.vText cs, p.2) := rfl

theorem decodeStep_UUID (junk : Nat) (rest : List Nat) :
    decodeStep junk KIND_UUID rest =
      (read_str rest).bind fun p =>
        if p.1.length = 16 then some (.vUuid p.1, p.2) else none := rfl

theorem decodeStep_encoded (host : Int) (junk : Nat) (e : Elem) (out : List Nat)
    (r : List Nat) (hc : consElem e) (henc : c_encode_value host e = some out) :
    ∃ ch payload e2, out = ch :: payload ∧ ch ≠ KIND_SEP ∧
      decodeStep junk ch (payload ++ r) = some (e2, r) ∧ (decElem e → e2 = e) := by
  cases e with
  | vNull =>
    refine ⟨KIND_NULL, [], .vNull, ?_, by decide, ?_, fun _ => rfl⟩
    · simpa [c_encode_value] using henc.symm
    · exact decodeStep_NULL junk r
  | vBool b =>
    refine ⟨KIND_BOOL, [if b then 1 else 0], .vBool (junk != 0), ?_, by decide, ?_, ?_⟩
    · simpa [c_encode_value] using henc.symm
    · have hb : (if b then 1 else 0) ≤ 240 := by split <;> omega
      rw [decodeStep_BOOL]
      simp only [List.cons_append, read_plain_int, if_pos hb]
      rfl
    · intro hd
      exact absurd hd (by simp [decElem])
  | vInt i =>
    by_cases hneg : i < 0
    · have hout : out = KIND_NEG_INTEGER :: write_int (-i).toNat := by
        simpa [c_encode_value, hneg] using henc.symm
      have hm : (-i).toNat < 2 ^ 64 := by
        simp only [consElem] at hc
        omega
      refine ⟨KIND_NEG_INTEGER, write_int (-i).toNat,
        .vInt (-(((if (-i).toNat ≤ 240 then junk else (-i).toNat) : Nat) : Int)), hout,
        by decide, ?_, ?_⟩
      · rw [decodeStep_NEG_INTEGER]
        simp only [read_int]
        rw [read_write_int junk _ r hm]
        rfl
      · intro hd
        simp only [decElem] at hd
        have h240 : ¬ (-i).toNat ≤ 240 := by omega
        rw [if_neg h240]
        have hi : -(((-i).toNat : Nat) : Int) = i := by omega
        rw [hi]
    · have hout : out = KIND_INTEGER :: write_int i.toNat := by
        simpa [c_encode_value, hneg] using henc.symm
      have hm : i.toNat < 2 ^ 64 := by
        simp only [consElem] at hc
        omega
      refine ⟨KIND_INTEGER, write_int i.toNat,
        .vInt (((if i.toNat ≤ 240 then junk else i.toNat) : Nat) : Int), hout,
        by decide, ?_, ?_⟩
      · rw [decodeStep_INTEGER]
        simp only [read_int]
        rw [read_write_int junk _ r hm]
        rfl
      · intro hd
        simp only [decElem] at hd
        have h240 : ¬ i.toNat ≤ 240 := by omega
        rw [if_neg h240]
        have hi : ((i.toNat : Nat) : Int) = i := by omega
        rw [hi]
  | vBlob bs =>
    have hout : out = KIND_BLOB :: write_str bs := by
      simpa [c_encode_value] using henc.symm
    refine ⟨KIND_BLOB, write_str bs, .vBlob (strDecoded bs), hout, by decide, ?_, ?_⟩
    · rw [decodeStep_BLOB, read_write_str bs r hc]
      rfl
    · intro hd
      simp only [decElem] at hd
      rw [strDecoded_of_strOK bs hd.2]
  | vText cs =>
    have hout : out = KIND_TEXT :: write_str (utf8Encode cs) := by
      simpa [c_encode_value] using henc.symm
    obtain ⟨hval, hok⟩ := hc
    refine ⟨KIND_TEXT, write_str (utf8Encode cs), .vText cs, hout, by decide, ?_,
      fun _ => rfl⟩
    rw [decodeStep_TEXT, read_write_str (utf8Encode cs) r (utf8Encode_lt cs hval),
      strDecoded_of_strOK _ hok]
    show (utf8Decode (utf8Encode cs)).map _ = _
    rw [utf8_roundtrip cs hval]
    rfl
  | vUuid bs =>
    have hout : out = KIND_UUID :: write_str bs := by
      simpa [c_encode_value] using henc.symm
    obtain ⟨hlen, hbytes, hok⟩ := hc
    refine ⟨KIND_UUID, write_str bs, .vUuid bs, hout, by decide, ?_, fun _ => rfl⟩
    rw [decodeStep_UUID, read_write_str bs r hbytes, strDecoded_of_strOK bs hok]
    show (if bs.length = 16 then _ else none) = _
    rw [if_pos hlen]
  | vTime dt => exact absurd hc (by simp [consElem])

/-! ### Decoding encoded tuples -/

theorem unpack_go_nil (junk fuel : Nat) : unpack_go junk fuel [] = some ([], []) := by
  cases fuel <;> rfl

theorem unpack_go_cons (junk fuel ch : Nat) (rest : List Nat) :
    unpack_go junk (fuel + 1) (ch :: rest) =
      if ch = KIND_SEP then some ([], rest)
      else
        (decodeStep junk ch rest).bind fun p =>
          (unpack_go junk fuel p.2).map fun q => (p.1 :: q.1, q.2) := rfl

/-- A whole encoded tuple followed by a `KIND_SEP` decodes as one pass of the
element loop, consuming through the separator. -/
theorem unpack_go_key_sep (host : Int) (junk : Nat) (t : List Elem)
    (out r : List Nat) (fuel : Nat) (hc : ∀ e ∈ t, consElem e)
    (henc : c_encode_key host t = some out) (hfuel : out.length + 1 ≤ fuel) :
    ∃ t2, unpack_go junk fuel (out ++ KIND_SEP :: r) = some (t2, r) ∧
      ((∀ e ∈ t, decElem e) → t2 = t) := by
  induction t generalizing out fuel with
  | nil =>
    obtain rfl : out = [] := by simpa [c_encode_key] using henc.symm
    obtain ⟨f, rfl⟩ : ∃ f, fuel = f + 1 := ⟨fuel - 1, by omega⟩
    exact ⟨[], by rw [List.nil_append, unpack_go_cons, if_pos rfl], fun _ => rfl⟩
  | cons e t ih =>
    simp only [c_encode_key, Option.bind_eq_some, Option.map_eq_some'] at henc
    obtain ⟨b, hb, bs, hbs, rfl⟩ := henc
    obtain ⟨ch, payload, e2, rfl, hsep, hdec, himp⟩ :=
      decodeStep_encoded host junk e b (bs ++ KIND_SEP :: r) (hc e (by simp)) hb
    obtain ⟨f, rfl⟩ : ∃ f, fuel = f + 1 := ⟨fuel - 1, by omega⟩
    obtain ⟨t2, hrec, himp2⟩ := ih bs f (fun x hx => hc x (by simp [hx]))
      hbs (by simp at hfuel ⊢; omega)
    refine ⟨e2 :: t2, ?_, ?_⟩
    · rw [List.append_assoc, List.cons_append, unpack_go_cons, if_neg hsep, hdec]
      simp [hrec]
    · intro hd
      rw [himp (hd e (by simp)), himp2 (fun x hx => hd x (by simp [hx]))]

/-- A whole encoded tuple at the end of the input decodes as one pass of the
element loop, stopping at end of input. -/
theorem unpack_go_key_end (host : Int) (junk : Nat) (t : List Elem)
    (out : List Nat) (fuel : Nat) (hc : ∀ e ∈ t, consElem e)
    (henc : c_encode_key host t = some out) (hfuel : out.length ≤ fuel) :
    ∃ t2, unpack_go junk fuel out = some (t2, []) ∧
      ((∀ e ∈ t, decElem e) → t2 = t) := by
  induction t generalizing out fuel with
  | nil =>
    obtain rfl : out = [] := by simpa [c_encode_key] using henc.symm
    exact ⟨[], unpack_go_nil junk fuel, fun _ => rfl⟩
  | cons e t ih =>
    simp only [c_encode_key, Option.bind_eq_some, Option.map_eq_some'] at henc
    obtain ⟨b, hb, bs, hbs, rfl⟩ := henc
    obtain ⟨ch, payload, e2, rfl, hsep, hdec, himp⟩ :=
      decodeStep_encoded host junk e b bs (hc e (by simp)) hb
    obtain ⟨f, rfl⟩ : ∃ f, fuel = f + 1 := ⟨fuel - 1, by simp at hfuel; omega⟩
    obtain ⟨t2, hrec, himp2⟩ := ih bs f (fun x hx => hc x (by simp [hx]))
      hbs (by simp at hfuel ⊢; omega)
    refine ⟨e2 :: t2, ?_, ?_⟩
    · rw [List.cons_append, unpack_go_cons, if_neg hsep, hdec]
      simp [hrec]
    · intro hd
      rw [himp (hd e (by simp)), himp2 (fun x hx => hd x (by simp [hx]))]

/-! ### Decoding packed batches -/

theorem encodeItem_eq (host : Int) (it : PackItem) :
    encodeItem host it = c_encode_key host (tuplize it) := by
  cases it with
  | one e =>
    simp only [encodeItem, tuplize, c_encode_key]
    cases he : c_encode_value host e <;> simp [he]
  | tup t => rfl

/-- `py_unpack` on a packed single entry: the prefix matches, and on the
`decElem` domain the entry round-trips to its `tuplize`. -/
theorem py_unpack_pack (host : Int) (junk : Nat) (pfx s : List Nat) (it : PackItem)
    (hd : ∀ e ∈ tuplize it, decElem e) (hp : packs host pfx (.item it) = some s) :
    pfx.isPrefixOf s = true ∧ py_unpack junk pfx s = .ok (tuplize it) := by
  simp only [packs, Option.map_eq_some'] at hp
  obtain ⟨out, hout, rfl⟩ := hp
  rw [encodeItem_eq] at hout
  have hpre : pfx.isPrefixOf (pfx ++ out) = true :=
    List.isPrefixOf_iff_prefix.mpr (List.prefix_append pfx out)
  refine ⟨hpre, ?_⟩
  obtain ⟨t2, hdec, himp⟩ := unpack_go_key_end host junk (tuplize it) out out.length
    (fun e he => decElem_cons e (hd e he)) hout (le_refl _)
  rw [py_unpack, if_neg (by simp), if_pos hpre, List.drop_left, unpack, hdec]
  simp [himp hd]

theorem packItemsRest_cons (host : Int) (i : PackItem) (m : List PackItem) :
    packItemsRest host (i :: m) = (packItems host (i :: m)).map (KIND_SEP :: ·) := by
  cases he : encodeItem host i <;> cases hm : packItemsRest host m <;>
    simp [packItems, packItemsRest, he, hm]

theorem unpacks_go_cons_eq (junk f b : Nat) (bs : List Nat) :
    unpacks_go junk (f + 1) (b :: bs) =
      (unpack_go junk (b :: bs).length (b :: bs)).bind fun p =>
        (unpacks_go junk f p.2).map fun ts => p.1 :: ts := rfl

/-- The `unpacks` tuple loop over a batch whose final entry is the empty
tuple: the bare trailing `KIND_SEP` is consumed by the previous tuple's pass,
so the loop ends at end of input having emitted one tuple per *other* entry. -/
theorem unpacks_go_packItems (host : Int) (junk : Nat) (l : List PackItem)
    (out : List Nat) (fuel : Nat)
    (hc : ∀ it ∈ l, ∀ e ∈ tuplize it, consElem e)
    (henc : packItems host (l ++ [.tup []]) = some out) (hfuel : out.length ≤ fuel) :
    ∃ res, unpacks_go junk fuel out = some res ∧ res.length = l.length := by
  induction l generalizing out fuel with
  | nil =>
    obtain rfl : out = [] := by
      simpa [packItems, packItemsRest, encodeItem, c_encode_key] using henc.symm
    exact ⟨[], by cases fuel <;> rfl, rfl⟩
  | cons i m ih =>
    rw [List.cons_append, packItems] at henc
    simp only [Option.bind_eq_some, Option.map_eq_some'] at henc
    obtain ⟨b, hb, rest, hrest, rfl⟩ := henc
    rw [encodeItem_eq] at hb
    obtain ⟨j, m2, hm⟩ : ∃ j m2, m ++ [PackItem.tup []] = j :: m2 := by
      cases m <;> exact ⟨_, _, rfl⟩
    rw [hm, packItemsRest_cons, ← hm] at hrest
    simp only [Option.map_eq_some'] at hrest
    obtain ⟨tail, htail, rfl⟩ := hrest
    obtain ⟨f, rfl⟩ : ∃ f, fuel = f + 1 := ⟨fuel - 1, by simp at hfuel; omega⟩
    obtain ⟨t2, hdec, _⟩ := unpack_go_key_sep host junk (tuplize i) b tail
      ((b ++ KIND_SEP :: tail).length) (hc i (by simp)) hb (by simp)
    obtain ⟨res, hres, hlen2⟩ := ih tail f (fun it hit => hc it (by simp [hit]))
      htail (by simp at hfuel ⊢; omega)
    refine ⟨t2 :: res, ?_, by simp [hlen2]⟩
    obtain ⟨c, cs, hout⟩ : ∃ c cs, b ++ KIND_SEP :: tail = c :: cs := by
      cases b <;> exact ⟨_, _, rfl⟩
    rw [hout] at hdec ⊢
    rw [unpacks_go_cons_eq, hdec]
    simp [hres]

/-- `unpacks` over a packed batch whose last entry is the empty tuple: the
decode succeeds but returns one tuple fewer than was packed. -/
theorem unpacks_pack_lost (host : Int) (junk : Nat) (pfx s : List Nat)
    (l : List PackItem) (hc : ∀ it ∈ l, ∀ e ∈ tuplize it, consElem e)
    (hp : packs host pfx (.list (l ++ [.tup []])) = some s) :
    ∃ res, unpacks junk pfx s = .ok res ∧ res.length = l.length := by
  simp only [packs, Option.map_eq_some'] at hp
  obtain ⟨out, hout, rfl⟩ := hp
  have hpre : pfx.isPrefixOf (pfx ++ out) = true :=
    List.isPrefixOf_iff_prefix.mpr (List.prefix_append pfx out)
  obtain ⟨res, hres, hlen⟩ := unpacks_go_packItems host junk l out out.length hc hout
    (le_refl _)
  refine ⟨res, ?_, hlen⟩
  rw [unpacks, if_neg (by simp), if_pos hpre, List.drop_left, hres]

/-! ### The writer invariant -/

instance (w : Writer) : Decidable (winv w) := Nat.decLt _ _

theorem writer_grow_pos (w : Writer) : (writer_grow w).pos = w.pos := rfl

theorem writer_grow_len (w : Writer) (h : 1 ≤ w.buf.length) :
    w.buf.length < (writer_grow w).buf.length := by
  simp only [writer_grow, List.length_append, List.length_replicate]
  split <;> omega

theorem writer_ensure_go_spec (n : Int) (fuel : Nat) : ∀ (w : Writer), winv w →
    n ≤ (w.buf.length : Int) - (w.pos + 1) + fuel →
    (writer_ensure_go fuel w n).pos = w.pos ∧
    w.buf.length ≤ (writer_ensure_go fuel w n).buf.length ∧
    n ≤ ((writer_ensure_go fuel w n).buf.length : Int) -
      ((writer_ensure_go fuel w n).pos + 1) := by
  induction fuel with
  | zero =>
    intro w hw hfuel
    simp only [writer_ensure_go]
    exact ⟨trivial, le_refl _, by push_cast at hfuel ⊢; omega⟩
  | succ fuel ih =>
    intro w hw hfuel
    simp only [writer_ensure_go]
    split
    · next hcond =>
      have hlen := writer_grow_len w (by unfold winv at hw; omega)
      have hpos := writer_grow_pos w
      have hw2 : winv (writer_grow w) := by unfold winv at *; omega
      have hf2 : n ≤ ((writer_grow w).buf.length : Int) -
          ((writer_grow w).pos + 1) + fuel := by
        rw [hpos]; push_cast at hfuel ⊢; omega
      obtain ⟨h1, h2, h3⟩ := ih (writer_grow w) hw2 hf2
      exact ⟨by rw [h1, hpos], le_trans (le_of_lt hlen) h2, h3⟩
    · next hcond => exact ⟨rfl, le_refl _, by omega⟩

theorem writer_ensure_spec (w : Writer) (n : Int) (hw : winv w) :
    (writer_ensure w n).pos = w.pos ∧
    n ≤ ((writer_ensure w n).buf.length : Int) - ((writer_ensure w n).pos + 1) := by
  have hw' := hw
  unfold winv at hw'
  have h := writer_ensure_go_spec n (n.toNat + w.pos + 2) w hw (by push_cast; omega)
  exact ⟨h.1, h.2.2⟩

theorem winv_init (initial : Nat) (h : 0 < initial) : winv (writer_init initial) := by
  unfold winv writer_init
  simpa using h

theorem winv_putc (w : Writer) (o : Nat) (hw : winv w) : winv (writer_putc w o) := by
  unfold winv writer_putc at *
  split
  · next h =>
    have hlen := writer_grow_len w (by omega)
    have hpos := writer_grow_pos w
    simp only [List.length_set]
    omega
  · next h =>
    simp only [List.length_set]
    omega

theorem winv_ensure (w : Writer) (n : Int) (hw : winv w) (hn : 0 ≤ n) :
    winv (writer_ensure w n) := by
  have h := writer_ensure_spec w n hw
  unfold winv at *
  omega

theorem winv_puts (w : Writer) (s : List Nat) (hw : winv w) : winv (writer_puts w s) := by
  have h := writer_ensure_spec w s.length hw
  unfold winv writer_puts at *
  simp only [List.length_append, List.length_take, List.length_drop]
  omega

/-! ### The claims -/

/-- C1: Varint round-trip fails for small values — `read_plain_int` leaves
its result variable uninitialized for lead bytes ≤ 240 (`uint64_t v;` is
never assigned on that path before `*u64 = v`), so the decoded value is
whatever was on the stack (`junk`); the round trip holds only for v > 240. -/
theorem varint_roundtrip_C1 :
    read_plain_int 7 (write_int 5) = some (7, []) ∧
    read_plain_int 5 (write_int 5) = some (5, []) ∧
    ∀ junk v r, 240 < v → v < 2 ^ 64 →
      read_plain_int junk (write_int v ++ r) = some (v, r) := by
  refine ⟨by decide, by decide, fun junk v r h1 h2 => ?_⟩
  rw [read_write_int junk v r h2, if_neg (by omega)]

theorem varint_roundtrip_C1_w :
    read_plain_int 0 (write_int 1000 ++ []) = some (1000, []) :=
  varint_roundtrip_C1.2.2 0 1000 [] (by decide) (by decide)

/-- C2 counterexample: the claim says encoding(−2) < encoding(−1)
lexicographically; in fact the encoder writes `NEG_INTEGER` followed by the
varint of the magnitude without bit inversion, so encoding(−2) > encoding(−1). -/
theorem neg_order_C2_cex :
    c_encode_value 0 (.vInt (-2)) = some [KIND_NEG_INTEGER, 2] ∧
    c_encode_value 0 (.vInt (-1)) = some [KIND_NEG_INTEGER, 1] ∧
    lexLt [KIND_NEG_INTEGER, 2] [KIND_NEG_INTEGER, 1] = false ∧
    lexLt [KIND_NEG_INTEGER, 1] [KIND_NEG_INTEGER, 2] = true := by decide

/-- C2 (amended): among negative integers the encoded order is the *reverse*
of the numeric order: for a < b < 0 the encoding of b is lexicographically
smaller than the encoding of a. -/
theorem neg_order_C2 (host : Int) (a b : Int) (hab : a < b) (hb : b < 0)
    (ha : a.natAbs < 2 ^ 64) (outa outb : List Nat)
    (hea : c_encode_value host (.vInt a) = some outa)
    (heb : c_encode_value host (.vInt b) = some outb) :
    lexLt outb outa = true := by
  have ha' : a < 0 := lt_trans hab hb
  obtain rfl : outa = KIND_NEG_INTEGER :: write_int (-a).toNat := by
    simpa [c_encode_value, ha'] using hea.symm
  obtain rfl : outb = KIND_NEG_INTEGER :: write_int (-b).toNat := by
    simpa [c_encode_value, hb] using heb.symm
  exact lexLt_cons_same _ _ _ (write_int_lex_mono _ _ (by omega) (by omega))

theorem neg_order_C2_w : lexLt [KIND_NEG_INTEGER, 1] [KIND_NEG_INTEGER, 2] = true :=
  neg_order_C2 0 (-2) (-1) (by decide) (by decide) (by decide)
    [KIND_NEG_INTEGER, 2] [KIND_NEG_INTEGER, 1] (by decide) (by decide)

/-- C3 counterexample: the round trip `unpack(p, pack(p, v)) = tuplize v`
fails for integers of magnitude ≤ 240 — the decoded value is the
uninitialized `read_plain_int` local, not the packed integer. -/
theorem pack_roundtrip_C3_cex :
    packs 0 [] (.item (.one (.vInt 1))) = some [KIND_INTEGER, 1] ∧
    py_unpack 99 [] [KIND_INTEGER, 1] = .ok [.vInt 99] ∧
    UnpackRes.ok [Elem.vInt 99] ≠ .ok (tuplize (.one (.vInt 1))) := by decide

/-- C3 (amended): for a single packed entry (element or tuple) whose elements
lie in the decoder's faithful domain (`decElem`: no booleans, integers of
magnitude > 240, blob/text/uuid streams that survive the trailer truncation,
no timestamps), the output starts with the prefix and `py_unpack` returns
exactly `tuplize` of the entry. -/
theorem pack_roundtrip_C3 (host : Int) (junk : Nat) (pfx s : List Nat)
    (it : PackItem) (hd : ∀ e ∈ tuplize it, decElem e)
    (hp : packs host pfx (.item it) = some s) :
    pfx.isPrefixOf s = true ∧ py_unpack junk pfx s = .ok (tuplize it) :=
  py_unpack_pack host junk pfx s it hd hp

theorem pack_roundtrip_C3_w :
    [7].isPrefixOf [7, 35, 243, 248] = true ∧
    py_unpack 0 [7] [7, 35, 243, 248] = .ok (tuplize (.one (.vInt 1000))) :=
  pack_roundtrip_C3 0 0 [7] [7, 35, 243, 248] (.one (.vInt 1000))
    (by decide) (by decide)

/-- C4 counterexample: the final pre-terminator byte (the shifted-out
trailer) is written without the high bit — `write_str [1]` contains the
non-terminal byte 0x40, which does not have bit 7 set. -/
theorem blob_termination_C4_cex :
    write_str [1] = [128, 64, 0] ∧ 64 &&& 128 = 0 ∧ (64 : Nat) ≠ 0 := by decide

/-- C4 (amended): `write_str` output splits as `mid ++ tail` where every
byte of `mid` has the high bit set (hence is nonzero), and `tail` is either
just the terminator `[0]` or a nonzero trailer byte followed by the
terminator — so the encoding contains exactly one 0x00, at the end, but the
trailer byte need not have bit 7 set. -/
theorem blob_termination_C4 (bs : List Nat) (h : ∀ b ∈ bs, b < 256) :
    ∃ mid tail, write_str bs = mid ++ tail ∧
      (∀ b ∈ mid, 128 ≤ b ∧ b < 256) ∧
      (tail = [0] ∨ ∃ tr, tr ≠ 0 ∧ tr < 256 ∧ tail = [tr, 0]) := by
  unfold write_str
  exact write_str_go_split bs 1 0 (le_refl 1) (by omega) (by omega) h

theorem blob_termination_C4_w :
    ∃ mid tail, write_str [1] = mid ++ tail ∧
      (∀ b ∈ mid, 128 ≤ b ∧ b < 256) ∧
      (tail = [0] ∨ ∃ tr, tr ≠ 0 ∧ tr < 256 ∧ tail = [tr, 0]) :=
  blob_termination_C4 [1] (by decide)

/-- C5 counterexample: when the input is *shorter* than the prefix (which
the claim includes in "p1 is not a prefix"), `py_unpack` and `unpacks` raise
(`error`) instead of returning the `NoMatch` sentinel. -/
theorem nomatch_C5_cex :
    packs 0 [] (.item (.tup [])) = some [] ∧
    List.isPrefixOf [0] ([] : List Nat) = false ∧
    py_unpack 0 [0] [] = .error ∧ unpacks 0 [0] [] = .error := by decide

/-- C5 (amended): whenever the input is at least as long as the prefix but
the prefix does not match, both `py_unpack` and `unpacks` return the
`NoMatch` sentinel rather than an error. -/
theorem nomatch_C5 (junk : Nat) (pfx s : List Nat) (hlen : pfx.length ≤ s.length)
    (hnp : pfx.isPrefixOf s = false) :
    py_unpack junk pfx s = .noMatch ∧ unpacks junk pfx s = .noMatch := by
  constructor
  · rw [py_unpack, if_neg (by omega), if_neg (by simp [hnp])]
  · rw [unpacks, if_neg (by omega), if_neg (by simp [hnp])]

theorem nomatch_C5_w : py_unpack 0 [1] [2] = .noMatch ∧ unpacks 0 [1] [2] = .noMatch :=
  nomatch_C5 0 [1] [2] (by decide) (by decide)

/-- C6: the offset field of an encoded aware timestamp is always 64 —
`get_utcoffset_secs` already returns quarter-hours (`secs / (15 * 60)`), and
`write_time` divides by `UTCOFFSET_DIV = 900` a second time, so for
+01:00 (3600 s) the encoded field is 64 + (4 / 900) = 64 where the claim's
formula gives 3600 / 900 + 64 = 68. -/
theorem time_offset_C6 :
    write_time 0 ⟨2013, 7, 15, 12, 30, 5, 0, some 3600⟩ =
      some (KIND_TIME :: write_int 175858099840064) ∧
    175858099840064 % 128 = 64 ∧ (3600 : Int).tdiv 900 + 64 = 68 := by decide

/-- C7: the varint encoding preserves order — for u < v < 2^64 the encoding
of u is lexicographically (unsigned memcmp) strictly below the encoding
of v. -/
theorem varint_order_C7 (u v : Nat) (huv : u < v) (hv : v < 2 ^ 64) :
    lexLt (write_int u) (write_int v) = true :=
  write_int_lex_mono u v huv hv

theorem varint_order_C7_w : lexLt (write_int 5) (write_int 70000) = true :=
  varint_order_C7 5 70000 (by decide) (by decide)

/-- C8: the offset-table count is read with `read_plain_int`, so a count
≤ 240 decodes as the uninitialized local: for the table "count 1, delta 5"
the result has junk + 1 offsets (1 when junk = 0, a decode error when
junk = 2 runs past the input, 4 offsets when junk = 3 and the deltas
themselves are junk-decoded) — never the claimed n + 1 = 2. -/
theorem offsets_C8 :
    py_decode_offsets 0 [1, 5] = some ([0], 1) ∧
    py_decode_offsets 2 [1, 5] = none ∧
    py_decode_offsets 3 (write_int 1 ++ write_int 651 ++ [0, 0]) =
      some ([0, 651, 654, 657], 5) := by decide

/-- C9 counterexample: the claim's premise (no timestamps) is not enough for
a clean length-(n−1) result — a UUID whose bit-stream drops its final byte
(16 zero bytes) makes the decoder *error* rather than return a shorter
list. -/
theorem batch_lost_C9_cex :
    (packs 0 [] (.list [.tup [.vUuid (List.replicate 16 0)], .tup []])).isSome
      = true ∧
    unpacks 0 []
      ((packs 0 [] (.list [.tup [.vUuid (List.replicate 16 0)], .tup []])).getD [])
      = .error := by decide

/-- C9 (amended): for a batch whose last entry is the empty tuple and whose
other entries decode without error (`consElem`), `unpacks` of `packs`
succeeds but returns one tuple fewer than was packed: the final empty tuple
contributes only the bare separator, which the previous pass consumes. -/
theorem batch_lost_C9 (host : Int) (junk : Nat) (pfx s : List Nat)
    (l : List PackItem) (hc : ∀ it ∈ l, ∀ e ∈ tuplize it, consElem e)
    (hp : packs host pfx (.list (l ++ [.tup []])) = some s) :
    ∃ res, unpacks junk pfx s = .ok res ∧ res.length = l.length :=
  unpacks_pack_lost host junk pfx s l hc hp

theorem batch_lost_C9_w :
    ∃ res, unpacks 0 [] [15, 10] = .ok res ∧ res.length = 1 :=
  batch_lost_C9 0 0 [] [15, 10] [.tup [.vNull]] (by decide) (by decide)

/-- C10: the writer's slack invariant `pos < size` holds after `writer_init`
with positive initial size and is preserved by `writer_putc`,
`writer_ensure` (non-negative request), and `writer_puts`, so the unchecked
single-byte store of `writer_putchar` always lands inside the buffer. -/
theorem writer_inv_C10 (w : Writer) (initial o : Nat) (n : Int) (s : List Nat)
    (h0 : 0 < initial) (hw : winv w) (hn : 0 ≤ n) :
    winv (writer_init initial) ∧ winv (writer_putc w o) ∧
    winv (writer_ensure w n) ∧ winv (writer_puts w s) :=
  ⟨winv_init initial h0, winv_putc w o hw, winv_ensure w n hw hn, winv_puts w s hw⟩

theorem writer_inv_C10_w :
    winv (writer_init 4) ∧ winv (writer_putc (writer_init 1) 5) ∧
    winv (writer_ensure (writer_init 1) 3) ∧ winv (writer_puts (writer_init 1) [1, 2]) :=
  writer_inv_C10 (writer_init 1) 4 5 3 [1, 2] (by decide) (by decide) (by decide)

end KeyCoder
